import Mathlib

/-!
Verification of the JailedThreeJS synchronization engine (a DOM → Three.js
scene-graph projector).  The JavaScript sources are shallowly embedded:

* numbers are modelled as `ℚ` (the engine only performs field arithmetic on
  its values; `NaN` / `±Infinity` appear only as parse failures and are
  modelled as `Option` `none`);
* JavaScript runtime values flowing through the style pipeline are the
  inductive `JSVal`;
* stateful code (the picking dispatcher, the cell index state, the asset
  cache) is explicit state passing;
* time-driven animation (`requestAnimationFrame` sampling) takes the list of
  frame timestamps as an explicit argument and returns the trace of callback
  invocations.
-/

/-- JavaScript values relevant to the style/animation pipeline of the engine:
numbers, numeric arrays, strings, `undefined`, and vector-like backend objects
(objects exposing a `toArray` method, e.g. `THREE.Vector3`), whose numeric
components are the carried list. -/
inductive JSVal where
  | num (q : ℚ)
  | arr (l : List ℚ)
  | str (s : String)
  | undef
  | vec (l : List ℚ)
deriving DecidableEq

/-- `lerpNumber` from Train.js: `a + (b - a) * t`. -/
def lerpNumber (a b t : ℚ) : ℚ :=
  a + (b - a) * t

/-- `lerpArray` from Train.js: loop over `0 ..= max(from.length, to.length) - 1`;
indices present in both arrays are interpolated with `lerpMethod`, indices
present in only one array keep that array's value. -/
def lerpArray (fromA toA : List ℚ) (t : ℚ) (lerpMethod : ℚ → ℚ → ℚ → ℚ) : List ℚ :=
  (List.range (max fromA.length toA.length)).map fun i =>
    if i < fromA.length then
      if i < toA.length then lerpMethod (fromA.getD i 0) (toA.getD i 0) t
      else fromA.getD i 0
    else toA.getD i 0

/-- `lerpValue` from Train.js: numbers lerp with `lerpMethod`, arrays lerp with
`lerpArray`; mixed or unsupported types return `to` instantly. -/
def lerpValue (fromV toV : JSVal) (t : ℚ) (lerpMethod : ℚ → ℚ → ℚ → ℚ) : JSVal :=
  match fromV, toV with
  | .num a, .num b => .num (lerpMethod a b t)
  | .arr a, .arr b => .arr (lerpArray a b t lerpMethod)
  | _, _ => toV

theorem lerpArray_length (a b : List ℚ) (t : ℚ) (m : ℚ → ℚ → ℚ → ℚ) :
    (lerpArray a b t m).length = max a.length b.length := by
  simp [lerpArray]

theorem lerpArray_getD (a b : List ℚ) (t : ℚ) (m : ℚ → ℚ → ℚ → ℚ) (i : ℕ)
    (h : i < max a.length b.length) :
    (lerpArray a b t m).getD i 0 =
      if i < a.length then
        if i < b.length then m (a.getD i 0) (b.getD i 0) t else a.getD i 0
      else b.getD i 0 := by
  unfold lerpArray
  rw [List.getD_eq_getElem?_getD, List.getElem?_map, List.getElem?_range h]
  rfl

/-- C9: array interpolation lerps indices present in both inputs and passes
any index present in only one input through unchanged, with no truncation and
no error on length mismatch; in particular
`lerpArray [1,2,3,4] [10,20,30] 0.5 = [5.5, 11, 16.5, 4]`. -/
theorem lerpArray_tolerant (a b : List ℚ) (t : ℚ) :
    (lerpArray a b t lerpNumber).length = max a.length b.length ∧
    (∀ i, i < a.length → i < b.length →
      (lerpArray a b t lerpNumber).getD i 0 = lerpNumber (a.getD i 0) (b.getD i 0) t) ∧
    (∀ i, i < a.length → b.length ≤ i →
      (lerpArray a b t lerpNumber).getD i 0 = a.getD i 0) ∧
    (∀ i, a.length ≤ i → i < b.length →
      (lerpArray a b t lerpNumber).getD i 0 = b.getD i 0) ∧
    lerpArray [1, 2, 3, 4] [10, 20, 30] (1/2) lerpNumber = [11/2, 11, 33/2, 4] := by
  refine ⟨lerpArray_length a b t lerpNumber, ?_, ?_, ?_,
    by norm_num [lerpArray, lerpNumber, List.range, List.range.loop]⟩
  · intro i h₁ h₂
    rw [lerpArray_getD a b t lerpNumber i (lt_max_of_lt_left h₁)]
    simp [h₁, h₂]
  · intro i h₁ h₂
    rw [lerpArray_getD a b t lerpNumber i (lt_max_of_lt_left h₁)]
    simp [h₁, Nat.not_lt.mpr h₂]
  · intro i h₁ h₂
    rw [lerpArray_getD a b t lerpNumber i (lt_max_of_lt_right h₂)]
    simp [Nat.not_lt.mpr h₁]

/-- Witness for C9 at the concrete input of the claim. -/
theorem lerpArray_tolerant_witness :
    (lerpArray [1, 2, 3, 4] [10, 20, 30] (1/2) lerpNumber).getD 3 0 =
      ([1, 2, 3, 4] : List ℚ).getD 3 0 :=
  (lerpArray_tolerant [1, 2, 3, 4] [10, 20, 30] (1/2)).2.2.1 3 (by decide) (by decide)

/-! ### Numeric string parsing (JS built-ins used by the engine) -/

/-- Value of a digit list (most significant first). -/
def digitsVal (cs : List Char) : ℕ :=
  cs.foldl (fun acc c => 10 * acc + (c.toNat - 48)) 0

/-- Value of a fractional digit list. -/
def fracVal (cs : List Char) : ℚ :=
  (digitsVal cs : ℚ) / (10 ^ cs.length)

/-- Parse an optionally-signed decimal prefix `[+-]? digits [. digits]` from a
character list, returning the value and the unconsumed remainder; `none` when
no digits are present (JS `NaN`).  Models the decimal fragment of the JS
numeric grammar, the only fragment the engine's stylesheet inputs use. -/
def parseDecPrefix (cs : List Char) : Option (ℚ × List Char) :=
  let sgncs : Bool × List Char :=
    match cs with
    | c :: rest =>
      if c = '-' then (true, rest) else if c = '+' then (false, rest) else (false, cs)
    | [] => (false, cs)
  let neg := sgncs.1
  let cs1 := sgncs.2
  let ds := cs1.takeWhile Char.isDigit
  let cs2 := cs1.dropWhile Char.isDigit
  let signed : ℚ → ℚ := fun v => if neg then -v else v
  match cs2 with
  | c :: rest =>
    if c = '.' then
      let fs := rest.takeWhile Char.isDigit
      let cs3 := rest.dropWhile Char.isDigit
      if ds = [] ∧ fs = [] then none
      else some (signed ((digitsVal ds : ℚ) + fracVal fs), cs3)
    else if ds = [] then none else some (signed (digitsVal ds : ℚ), cs2)
  | [] => if ds = [] then none else some (signed (digitsVal ds : ℚ), [])

/-- JS `String.prototype.trim`: strip leading and trailing whitespace
(modelled at the character-list level, as are all string operations below, so
that every definition evaluates by kernel reduction). -/
def jsTrim (s : String) : String :=
  ⟨((s.data.dropWhile Char.isWhitespace).reverse.dropWhile Char.isWhitespace).reverse⟩

/-- JS `String.prototype.endsWith`. -/
def strEndsWith (s suf : String) : Bool :=
  suf.data.isSuffixOf s.data

/-- JS `String.prototype.startsWith`. -/
def strStartsWith (s pre : String) : Bool :=
  pre.data.isPrefixOf s.data

/-- A character-wise test on a JS string (regex `test` on a class). -/
def strAny (s : String) (p : Char → Bool) : Bool :=
  s.data.any p

/-- JS `Array.prototype.join(' ')`. -/
def strJoinSpace : List String → String
  | [] => ""
  | [x] => x
  | x :: rest => ⟨x.data ++ ' ' :: (strJoinSpace rest).data⟩

/-- JS `parseFloat`: skip leading whitespace, parse a decimal prefix, ignore
trailing characters; `none` models `NaN`. -/
def parseFloatQ (s : String) : Option ℚ :=
  (parseDecPrefix (jsTrim s).data).map Prod.fst

/-- JS `Number(...)` applied to a string: empty / whitespace-only gives `0`;
otherwise the whole trimmed string must be a decimal literal, else `NaN`
(`none`). -/
def jsNumberQ (s : String) : Option ℚ :=
  let t := jsTrim s
  if t = "" then some 0
  else
    match parseDecPrefix t.data with
    | some (v, []) => some v
    | _ => none

/-- JS `parseInt(s, 10)`: skip whitespace, optional sign, leading digits;
`none` when no digits (JS `NaN`). -/
def parseIntQ (s : String) : Option ℤ :=
  let cs := (jsTrim s).data
  let sgncs : Bool × List Char :=
    match cs with
    | c :: rest =>
      if c = '-' then (true, rest) else if c = '+' then (false, rest) else (false, cs)
    | [] => (false, cs)
  let ds := sgncs.2.takeWhile Char.isDigit
  if ds = [] then none
  else some (if sgncs.1 then -(digitsVal ds : ℤ) else (digitsVal ds : ℤ))

/-- JS `String.prototype.toLowerCase` (ASCII fragment, the engine's inputs). -/
def toLowerStr (s : String) : String :=
  ⟨s.data.map Char.toLower⟩

/-- Separator-class tokenizer over a character list (accumulator style): the
split pieces of a JS `split` on a one-character-class regex with `+`, empty
pieces dropped. -/
def tokenizeByAcc (p : Char → Bool) : List Char → List Char → List (List Char)
  | [], acc => if acc = [] then [] else [acc.reverse]
  | c :: rest, acc =>
    if p c then
      if acc = [] then tokenizeByAcc p rest []
      else acc.reverse :: tokenizeByAcc p rest []
    else tokenizeByAcc p rest (c :: acc)

/-- Separator-class tokenizer over a character list. -/
def tokenizeBy (p : Char → Bool) (cs : List Char) : List (List Char) :=
  tokenizeByAcc p cs []

/-- Whitespace tokenizer: `split(/\s+/)` with empty pieces dropped. -/
def tokenizeWS (cs : List Char) : List (List Char) :=
  tokenizeBy Char.isWhitespace cs

/-- JS `value.split(/\s+/).filter(Boolean)`. -/
def splitWS (s : String) : List String :=
  (tokenizeWS s.data).map fun t => ⟨t⟩

/-! ### Easing (`cubicBezier`, `_get_Equation` from Train.js) -/

/-- The Newton iteration `solveTforX` of `cubicBezier`: at most 4 steps, early
return when `|dx| < 1e-6`.  (In `ℚ`, division by a zero derivative yields `0`
where JS would yield a non-finite number; no claim depends on sampled easing
values.) -/
def solveTforX (sampleCurveX sampleCurveDerivativeX : ℚ → ℚ) (x : ℚ) :
    ℕ → ℚ → ℚ
  | 0, t => t
  | n + 1, t =>
    let dx := sampleCurveX t - x
    if |dx| < 1 / 1000000 then t
    else solveTforX sampleCurveX sampleCurveDerivativeX x n (t - dx / sampleCurveDerivativeX t)

/-- `cubicBezier(p0, p1, p2, p3)` from Train.js. -/
def cubicBezier (p0 p1 p2 p3 : ℚ) : ℚ → ℚ :=
  let cx := 3 * p0
  let bx := 3 * (p2 - p0) - cx
  let ax := 1 - cx - bx
  let cy := 3 * p1
  let byc := 3 * (p3 - p1) - cy
  let ay := 1 - cy - byc
  let sampleCurveX := fun t => ((ax * t + bx) * t + cx) * t
  let sampleCurveY := fun t => ((ay * t + byc) * t + cy) * t
  let sampleCurveDerivativeX := fun t => (3 * ax * t + 2 * bx) * t + cx
  fun x => sampleCurveY (solveTforX sampleCurveX sampleCurveDerivativeX x 4 x)

/-- The `cubic-bezier(a,b,c,d)` string form accepted by `_get_Equation`:
the text between the parentheses, split on `[, ]+`, mapped through `Number`
with `NaN` entries dropped, must contain exactly 4 numbers. -/
def parseCubicBezierArgs (s : String) : Option (ℚ × ℚ × ℚ × ℚ) :=
  if strStartsWith s "cubic-bezier" then
    let inner := ((s.data.dropWhile (fun c => !(c == '('))).drop 1).takeWhile
      (fun c => !(c == ')'))
    let nums := (tokenizeBy (fun c => c == ',' || c == ' ') inner).filterMap
      (fun t => jsNumberQ ⟨t⟩)
    match nums with
    | [a, b, c, d] => some (a, b, c, d)
    | _ => none
  else none

/-- `_get_Equation` from Train.js: named presets, `cubic-bezier(...)` strings,
and a linear fallback on anything malformed. -/
def getEquation (timingFunction : String) : ℚ → ℚ :=
  if timingFunction = "linear" then fun t => t
  else if timingFunction = "ease" then cubicBezier (1/4) (1/10) (1/4) 1
  else if timingFunction = "ease-in" then cubicBezier (42/100) 0 1 1
  else if timingFunction = "ease-out" then cubicBezier 0 0 (58/100) 1
  else if timingFunction = "ease-in-out" then cubicBezier (42/100) 0 (58/100) 1
  else
    match parseCubicBezierArgs timingFunction with
    | some (a, b, c, d) => cubicBezier a b c d
    | none => fun t => t

/-! ### `animateLerp` from Train.js -/

/-- Events observable from `animateLerp`: `onUpdate(value, easedT)` and
`onComplete(finalValue)` invocations, in call order. -/
inductive ALEv where
  | update (v : JSVal) (easedT : ℚ)
  | complete (v : JSVal)
deriving DecidableEq

/-- The `isAnimatable` check of `animateLerp`: number or array. -/
def isAnimatable : JSVal → Bool
  | .num _ => true
  | .arr _ => true
  | _ => false

/-- The `step` sampling loop of `animateLerp`, driven by the explicit stream
of `requestAnimationFrame` timestamps; an exhausted stream models time never
advancing (the animation simply has produced no further samples yet). -/
def animateLerpSteps (fromV toV : JSVal) (durationMs : ℚ) (ease : ℚ → ℚ)
    (start : ℚ) : List ℚ → List ALEv
  | [] => []
  | now :: frames =>
    let t0 := (now - start) / durationMs
    let t := if t0 ≥ 1 then 1 else t0
    let easedT := ease t
    let value := lerpValue fromV toV easedT lerpNumber
    if t < 1 then
      ALEv.update value easedT :: animateLerpSteps fromV toV durationMs ease start frames
    else
      [ALEv.update value easedT, ALEv.complete value]

/-- `animateLerp(from, to, durationMs, onUpdate, onComplete, timingFunction)`
from Train.js, as the trace of callback invocations.  `durationMs = none`
models a non-finite (`NaN` / `±Infinity`) duration; `start` is
`performance.now()` at call time and `frames` the animation-frame timestamps. -/
def animateLerp (fromV toV : JSVal) (durationMs : Option ℚ)
    (timingFunction : String) (start : ℚ) (frames : List ℚ) : List ALEv :=
  if ¬ isAnimatable fromV ∨ ¬ isAnimatable toV then
    [ALEv.update toV 1, ALEv.complete toV]
  else
    match durationMs with
    | none => [ALEv.update toV 1, ALEv.complete toV]
    | some d =>
      if d ≤ 0 then [ALEv.update toV 1, ALEv.complete toV]
      else animateLerpSteps fromV toV d (getEquation timingFunction) start frames

/-- C8: whenever either endpoint is not a number or numeric array, or the
duration is not a positive finite number, `animateLerp` resolves instantly and
synchronously (the trace does not depend on any animation frame) to the `to`
value with `easedT = 1`, invoking the update callback and then the complete
callback exactly once each. -/
theorem animateLerp_instant (fromV toV : JSVal) (durationMs : Option ℚ)
    (timingFunction : String) (start : ℚ) (frames : List ℚ)
    (h : isAnimatable fromV = false ∨ isAnimatable toV = false ∨
         durationMs = none ∨ (∀ d, durationMs = some d → d ≤ 0)) :
    animateLerp fromV toV durationMs timingFunction start frames =
      [ALEv.update toV 1, ALEv.complete toV] := by
  unfold animateLerp
  rcases h with h | h | h | h
  · simp [h]
  · simp [h]
  · subst h
    split
    · rfl
    · rfl
  · split
    · rfl
    · cases durationMs with
      | none => rfl
      | some d => simp [h d rfl]

/-- Witness for C8: string endpoints with a positive duration still resolve
instantly. -/
theorem animateLerp_instant_witness :
    animateLerp (.str "a") (.str "b") (some 100) "linear" 0 [0, 50, 100] =
      [ALEv.update (.str "b") 1, ALEv.complete (.str "b")] :=
  animateLerp_instant (.str "a") (.str "b") (some 100) "linear" 0 [0, 50, 100]
    (Or.inl (by decide))

/-! ### PickingDispatcher pointer-move (`default_onCellPointerMove_method`,
NoScope.js) -/

/-- Synthetic pointer events dispatched by `default_onCellPointerMove_method`
(`cellmouseleave`, `cellmouseenter`, `cellhover`), each carrying the hit
object, identified by a numeric id. -/
inductive PMEv where
  | leave (o : ℕ)
  | enter (o : ℕ)
  | hover (o : ℕ)
deriving DecidableEq

/-- Per-cell dispatcher state: `_last_cast_caught` plus the `:hover` flag of
each object's `extraParams` list (modelled as a boolean per object id;
`addFlag` / `delFlag` keep at most one copy of a flag in the list). -/
structure PMState where
  lastHit : Option ℕ
  hoverFlag : ℕ → Bool

/-- `default_onCellPointerMove_method` from NoScope.js: `hitResult` is the
topmost ray intersection (`intersectObjects(...)[0]`).  Returns the list of
dispatched events in order together with the updated state. -/
def pointerMove (hitResult : Option ℕ) (s : PMState) : List PMEv × PMState :=
  match hitResult with
  | some hitObject =>
    let step1 : List PMEv × PMState :=
      if some hitObject ≠ s.lastHit then
        match s.lastHit with
        | some lastHit =>
          ([PMEv.leave lastHit, PMEv.enter hitObject],
           { lastHit := some hitObject,
             hoverFlag := fun o => if o = lastHit then false else s.hoverFlag o })
        | none =>
          ([PMEv.enter hitObject], { s with lastHit := some hitObject })
      else ([], s)
    (step1.1 ++ [PMEv.hover hitObject],
     { step1.2 with hoverFlag := fun o => if o = hitObject then true else step1.2.hoverFlag o })
  | none =>
    match s.lastHit with
    | some lastHit =>
      ([PMEv.leave lastHit],
       { lastHit := none, hoverFlag := fun o => if o = lastHit then false else s.hoverFlag o })
    | none => ([], s)

/-- C3: a pointer-move whose hit differs from the previous hit fires exactly
one leave on the old hit (hover flag cleared) then exactly one enter on the
new hit (hover flag set), before the hover event; every move with a current
hit fires one hover event; a move from a hit to no hit clears the old hit's
hover flag and fires exactly one leave event. -/
theorem pointerMove_events (s : PMState) (oldHit newHit : ℕ) :
    (s.lastHit = some oldHit → oldHit ≠ newHit →
      (pointerMove (some newHit) s).1 =
        [PMEv.leave oldHit, PMEv.enter newHit, PMEv.hover newHit] ∧
      (pointerMove (some newHit) s).2.hoverFlag oldHit = false ∧
      (pointerMove (some newHit) s).2.hoverFlag newHit = true ∧
      (pointerMove (some newHit) s).2.lastHit = some newHit) ∧
    (pointerMove (some newHit) s).1.count (PMEv.hover newHit) = 1 ∧
    (s.lastHit = some oldHit →
      (pointerMove none s).1 = [PMEv.leave oldHit] ∧
      (pointerMove none s).2.hoverFlag oldHit = false ∧
      (pointerMove none s).2.lastHit = none) := by
  refine ⟨?_, ?_, ?_⟩
  · intro hlast hne
    have hdif : some newHit ≠ s.lastHit := by
      rw [hlast]
      simp [Ne.symm hne]
    simp [pointerMove, hlast, hdif, hne, Ne.symm hne]
  · by_cases hdif : some newHit ≠ s.lastHit
    · cases hls : s.lastHit with
      | none => simp [pointerMove, hls, List.count_cons]
      | some o =>
        rw [hls] at hdif
        have : o ≠ newHit := by
          intro h
          exact hdif (by rw [h])
        simp [pointerMove, hls, hdif, List.count_cons]
    · simp [pointerMove, hdif, List.count_cons]
  · intro hlast
    simp [pointerMove, hlast]

/-- Witness for C3: moving from object 1 to object 2, and from object 1 to no
hit. -/
theorem pointerMove_events_witness :
    (pointerMove (some 2) ⟨some 1, fun o => o == 1⟩).1 =
      [PMEv.leave 1, PMEv.enter 2, PMEv.hover 2] ∧
    (pointerMove none ⟨some 1, fun o => o == 1⟩).1 = [PMEv.leave 1] := by
  refine ⟨((pointerMove_events ⟨some 1, fun o => o == 1⟩ 1 2).1 rfl (by decide)).1, ?_⟩
  exact ((pointerMove_events ⟨some 1, fun o => o == 1⟩ 1 2).2.2 rfl).1

/-! ### AssetRegistry (utils.js: `storeAssetValue`, `gatherAssetRules`,
`getAsset`) -/

/-- A cache entry of the global `assetMap`: either the pending promise of an
in-flight load (identified by its load id) or a resolved value (resolved
asset objects and the four built-in geometries are abstracted to tokens). -/
inductive AssetEntry where
  | pending (loadId : ℕ)
  | resolved (v : ℕ)
deriving DecidableEq

/-- JS `Map.prototype.set`: update the existing entry in place, else append. -/
def mapSet (m : List (String × AssetEntry)) (k : String) (v : AssetEntry) :
    List (String × AssetEntry) :=
  match m with
  | [] => [(k, v)]
  | p :: rest => if p.1 = k then (k, v) :: rest else p :: mapSet rest k v

/-- The global asset cache together with the id of the next load that
`loadAsset` would issue. -/
structure AssetState where
  assetMap : List (String × AssetEntry)
  nextLoadId : ℕ
deriving DecidableEq

/-- `storeAssetValue` on a thenable (an in-flight `loadAsset` call): the
pending promise is stored under the key; the load's id is returned. -/
def storePending (st : AssetState) (key : String) : AssetState × ℕ :=
  ({ assetMap := mapSet st.assetMap key (.pending st.nextLoadId),
     nextLoadId := st.nextLoadId + 1 }, st.nextLoadId)

/-- `storeAssetValue` on a non-thenable value (the built-in geometries). -/
def storeImmediate (st : AssetState) (key : String) (v : ℕ) : AssetState :=
  { st with assetMap := mapSet st.assetMap key (.resolved v) }

/-- The `.then` continuation installed by `storeAssetValue`: on resolution the
entry is overwritten with the resolved value. -/
def settleResolve (st : AssetState) (key : String) (v : ℕ) : AssetState :=
  { st with assetMap := mapSet st.assetMap key (.resolved v) }

/-- The `.catch` continuation installed by `storeAssetValue`: on rejection the
error is logged and the cache entry is deleted. -/
def settleReject (st : AssetState) (key : String) : AssetState :=
  { st with assetMap := st.assetMap.filter (fun p => p.1 != key) }

/-- A stylesheet asset at-rule after name resolution (`@identifier` body with
a `url:` and the `name:`-alias / identifier / filename naming rule already
applied), as consumed by `gatherAssetRules`. -/
structure AssetRuleM where
  name : String
  url : String

/-- `gatherAssetRules` from utils.js: for each declared asset whose name is
not yet cached, issue a load and store the pending value.  Returns the new
state and the loads issued as `(name, loadId)` pairs. -/
def gatherAssetRules : List AssetRuleM → AssetState → AssetState × List (String × ℕ)
  | [], st => (st, [])
  | r :: rest, st =>
    if (st.assetMap.lookup r.name).isSome then gatherAssetRules rest st
    else
      let st2lid := storePending st r.name
      let rec3 := gatherAssetRules rest st2lid.1
      (rec3.1, (r.name, st2lid.2) :: rec3.2)

/-- The built-in asset names pre-seeded by `getAsset` on first use. -/
def builtinNames : List String :=
  ["cube", "sphere", "plane", "torus"]

/-- The built-in seeding step of `getAsset`: when the cache is empty, register
the four primitive geometries. -/
def seedBuiltins (st : AssetState) : AssetState :=
  if st.assetMap = [] then
    storeImmediate (storeImmediate (storeImmediate (storeImmediate st
      "cube" 0) "sphere" 1) "plane" 2) "torus" 3
  else st

/-- `getAsset(name, path)` from utils.js: seed built-ins when the cache is
empty, gather stylesheet asset at-rules, then look the name up, issuing a load
when it is absent and a path is supplied.  Returns the value handed to the
caller (`none` models the `null` of the missing-asset warning path), the
updated cache and all loads issued by this call. -/
def getAsset (rules : List AssetRuleM) (name : String) (path : Option String)
    (st : AssetState) : Option AssetEntry × AssetState × List (String × ℕ) :=
  let st1 := seedBuiltins st
  let st2loads := gatherAssetRules rules st1
  let st2 := st2loads.1
  let loads := st2loads.2
  if (st2.assetMap.lookup name).isSome then (st2.assetMap.lookup name, st2, loads)
  else
    match path with
    | none => (none, st2, loads)
    | some _ =>
      let st3lid := storePending st2 name
      (st3lid.1.assetMap.lookup name, st3lid.1, loads ++ [(name, st3lid.2)])

theorem lookup_mapSet_self (m : List (String × AssetEntry)) (k : String)
    (v : AssetEntry) : (mapSet m k v).lookup k = some v := by
  induction m with
  | nil => simp [mapSet, List.lookup]
  | cons p rest ih =>
    obtain ⟨a, b⟩ := p
    by_cases h : a = k
    · simp [mapSet, h, List.lookup]
    · have hba : (k == a) = false := by simp [Ne.symm h]
      simp [mapSet, h, List.lookup, hba, ih]

theorem lookup_mapSet_ne (m : List (String × AssetEntry)) (k k' : String)
    (v : AssetEntry) (h : k' ≠ k) :
    (mapSet m k v).lookup k' = m.lookup k' := by
  have hkk : (k' == k) = false := by simp [h]
  induction m with
  | nil => simp [mapSet, List.lookup, hkk]
  | cons p rest ih =>
    obtain ⟨a, b⟩ := p
    by_cases hp : a = k
    · subst hp
      simp [mapSet, List.lookup, hkk]
    · simp only [mapSet, hp, if_false]
      cases hka : (k' == a) with
      | true => simp [List.lookup, hka]
      | false => simp [List.lookup, hka, ih]

theorem lookup_filter_ne_self (m : List (String × AssetEntry)) (k : String) :
    (m.filter (fun p => p.1 != k)).lookup k = none := by
  induction m with
  | nil => simp
  | cons p rest ih =>
    obtain ⟨a, b⟩ := p
    by_cases h : a = k
    · simpa [List.filter_cons, h] using ih
    · have hba : (k == a) = false := by simp [Ne.symm h]
      simp [List.filter_cons, h, List.lookup, hba, ih]

theorem gather_preserves_entry (rules : List AssetRuleM) (st : AssetState)
    (name : String) (e : AssetEntry)
    (h : st.assetMap.lookup name = some e) :
    (gatherAssetRules rules st).1.assetMap.lookup name = some e ∧
    ∀ lid, (name, lid) ∉ (gatherAssetRules rules st).2 := by
  induction rules generalizing st with
  | nil => exact ⟨by simpa [gatherAssetRules] using h, by simp [gatherAssetRules]⟩
  | cons r rest ih =>
    by_cases hr : (st.assetMap.lookup r.name).isSome
    · obtain ⟨hl, hnl⟩ := ih st h
      exact ⟨by simpa [gatherAssetRules, hr] using hl,
        fun lid => by simpa [gatherAssetRules, hr] using hnl lid⟩
    · have hne : r.name ≠ name := by
        intro hc
        rw [hc, h] at hr
        simp at hr
      have h2 : ((storePending st r.name).1).assetMap.lookup name = some e := by
        simpa [storePending, lookup_mapSet_ne _ _ _ _ (Ne.symm hne)] using h
      obtain ⟨hl, hnl⟩ := ih (storePending st r.name).1 h2
      refine ⟨by simpa [gatherAssetRules, hr] using hl, ?_⟩
      intro lid hmem
      simp [gatherAssetRules, hr] at hmem
      rcases hmem with ⟨h1, _⟩ | hmem
      · exact hne h1.symm
      · exact hnl lid hmem

theorem gather_issue (rules : List AssetRuleM) (st : AssetState) (name : String)
    (h : st.assetMap.lookup name = none) :
    ((gatherAssetRules rules st).1.assetMap.lookup name = none ∧
      ∀ lid, (name, lid) ∉ (gatherAssetRules rules st).2) ∨
    (∃ lid, (name, lid) ∈ (gatherAssetRules rules st).2) := by
  induction rules generalizing st with
  | nil => exact Or.inl ⟨by simpa [gatherAssetRules] using h, by simp [gatherAssetRules]⟩
  | cons r rest ih =>
    by_cases hr : (st.assetMap.lookup r.name).isSome
    · rcases ih st h with hl | hi
      · exact Or.inl ⟨by simpa [gatherAssetRules, hr] using hl.1,
          fun lid => by simpa [gatherAssetRules, hr] using hl.2 lid⟩
      · obtain ⟨lid, hm⟩ := hi
        exact Or.inr ⟨lid, by simpa [gatherAssetRules, hr] using hm⟩
    · by_cases hn : r.name = name
      · subst hn
        exact Or.inr ⟨st.nextLoadId, by simp [gatherAssetRules, hr, storePending]⟩
      · have h2 : ((storePending st r.name).1).assetMap.lookup name = none := by
          simpa [storePending, lookup_mapSet_ne _ _ _ _ (Ne.symm hn)] using h
        rcases ih (storePending st r.name).1 h2 with hl | hi
        · refine Or.inl ⟨by simpa [gatherAssetRules, hr] using hl.1, ?_⟩
          intro lid hmem
          simp [gatherAssetRules, hr] at hmem
          rcases hmem with ⟨h1, _⟩ | hmem
          · exact hn h1.symm
          · exact hl.2 lid hmem
        · obtain ⟨lid, hm⟩ := hi
          exact Or.inr ⟨lid, by simp [gatherAssetRules, hr, hm]⟩

theorem seedBuiltins_lookup_ne (st : AssetState) (name : String)
    (hnb : name ∉ builtinNames) :
    (seedBuiltins st).assetMap.lookup name = st.assetMap.lookup name := by
  simp [builtinNames] at hnb
  obtain ⟨h1, h2, h3, h4⟩ := hnb
  have hb1 : (name == "cube") = false := by simp [h1]
  have hb2 : (name == "sphere") = false := by simp [h2]
  have hb3 : (name == "plane") = false := by simp [h3]
  have hb4 : (name == "torus") = false := by simp [h4]
  by_cases he : st.assetMap = []
  · simp [seedBuiltins, he, storeImmediate, mapSet, List.lookup, hb1, hb2, hb3, hb4]
  · simp [seedBuiltins, he]

theorem seedBuiltins_of_ne_nil (st : AssetState) (h : st.assetMap ≠ []) :
    seedBuiltins st = st := by
  simp [seedBuiltins, h]

/-- C7: requesting an asset while its load is in flight returns the same
pending value as the first request and issues no load for that name; a load
failure evicts the cache entry, so a subsequent request for the same name
issues a fresh load. -/
theorem getAsset_dedup_and_retry (rules : List AssetRuleM) (name : String)
    (path : String) (st : AssetState) (p : ℕ)
    (hpend : st.assetMap.lookup name = some (.pending p))
    (hnb : name ∉ builtinNames) :
    ((getAsset rules name (some path) st).1 = some (.pending p) ∧
      ∀ lid, (name, lid) ∉ (getAsset rules name (some path) st).2.2) ∧
    ((settleReject st name).assetMap.lookup name = none ∧
      ∃ lid, (name, lid) ∈
        (getAsset rules name (some path) (settleReject st name)).2.2) := by
  constructor
  · have hne : st.assetMap ≠ [] := by
      intro h
      rw [h] at hpend
      simp [List.lookup] at hpend
    have hseed := seedBuiltins_of_ne_nil st hne
    obtain ⟨hl, hnl⟩ :=
      gather_preserves_entry rules (seedBuiltins st) name _ (by rw [hseed]; exact hpend)
    constructor
    · simp [getAsset, hl]
    · intro lid
      simp only [getAsset, hl, Option.isSome_some, if_true]
      exact hnl lid
  · have hevict : (settleReject st name).assetMap.lookup name = none :=
      lookup_filter_ne_self st.assetMap name
    refine ⟨hevict, ?_⟩
    have hseed : (seedBuiltins (settleReject st name)).assetMap.lookup name = none := by
      rw [seedBuiltins_lookup_ne (settleReject st name) name hnb]
      exact hevict
    rcases gather_issue rules (seedBuiltins (settleReject st name)) name hseed with
      ⟨hl, _⟩ | ⟨lid, hm⟩
    · refine ⟨(gatherAssetRules rules (seedBuiltins (settleReject st name))).1.nextLoadId, ?_⟩
      simp [getAsset, hl, storePending]
    · by_cases hfound :
        ((gatherAssetRules rules (seedBuiltins (settleReject st name))).1.assetMap.lookup
          name).isSome
      · exact ⟨lid, by simp [getAsset, hfound, hm]⟩
      · exact ⟨lid, by simp [getAsset, hfound, hm]⟩

/-- Witness for C7: an in-flight load for "ship", re-requested, then failing
and re-requested again. -/
theorem getAsset_dedup_and_retry_witness :
    (getAsset [] "ship" (some "a.glb") ⟨[("ship", .pending 7)], 8⟩).1 =
      some (.pending 7) ∧
    (settleReject ⟨[("ship", .pending 7)], 8⟩ "ship").assetMap.lookup "ship" = none := by
  have h := getAsset_dedup_and_retry [] "ship" "a.glb" ⟨[("ship", .pending 7)], 8⟩ 7
    (by simp [List.lookup]) (by decide)
  exact ⟨h.1.1, h.2.1⟩

/-! ### Keyframe sequencing (`parseKeyframeTime`, `KeyFrameAnimationLerp`
from Train.js; `parseAnimationCSS` from artist.js; `getAnimationMap` from
utils.js) -/

/-- One keyframe rule of a `CSSKeyframesRule`: its `keyText` selector and its
style declaration block as (property name, raw value) pairs. -/
structure KFRule where
  keyText : String
  style : List (String × String)
deriving DecidableEq

/-- `parseKeyframeTime` from Train.js: `from` → 0, `to` → total, `<n>%` → that
fraction of total, `<n>ms` → that value, bare number → milliseconds, and `0`
for anything unparseable. -/
def parseKeyframeTime (keyText : String) (totalDuration : ℚ) : ℚ :=
  if keyText = "" then 0
  else
    let text := toLowerStr (jsTrim keyText)
    if text = "from" then 0
    else if text = "to" then totalDuration
    else if strEndsWith text "%" then
      match parseFloatQ text with
      | some v => v / 100 * totalDuration
      | none => 0
    else if strEndsWith text "ms" then
      match parseFloatQ text with
      | some v => v
      | none => 0
    else
      match jsNumberQ text with
      | some n => n
      | none => 0

/-- Comparison used by the `rules.sort(...)` call of `KeyFrameAnimationLerp`:
order keyframes by resolved time. -/
def kfLE (d : ℚ) (a b : KFRule) : Prop :=
  parseKeyframeTime a.keyText d ≤ parseKeyframeTime b.keyText d

instance (d : ℚ) : DecidableRel (kfLE d) := fun _ _ =>
  inferInstanceAs (Decidable (_ ≤ _))

instance (d : ℚ) : IsTotal KFRule (kfLE d) :=
  ⟨fun _ _ => le_total _ _⟩

instance (d : ℚ) : IsTrans KFRule (kfLE d) :=
  ⟨fun _ _ _ hab hbc => le_trans hab hbc⟩

/-- The `rules.sort((a, b) => parseKeyframeTime(a) - parseKeyframeTime(b))`
step: JS `Array.prototype.sort` is stable, and a stable sort by a total
preorder is unique, so insertion sort computes the same list. -/
def sortKFRules (d : ℚ) (rules : List KFRule) : List KFRule :=
  List.insertionSort (kfLE d) rules

/-- The per-frame custom-property collection of `KeyFrameAnimationLerp`: keep
declarations whose name starts with `--`, strip that marker, and convert the
raw value with `CSSValueTo3JSValue`.  The conversion is abstracted as `conv`:
it reads asset-cache and cross-node state orthogonal to the scheduling
semantics, and the scheduler applies it pointwise to raw values. -/
def collectProps (conv : String → JSVal) (r : KFRule) : List (String × JSVal) :=
  (r.style.filter (fun p => strStartsWith p.1 "--")).map
    (fun p => (⟨p.1.data.drop 2⟩, conv p.2))

/-- The keys of a collected frame (`Object.keys` order for duplicate-free
declaration blocks, which is what a `CSSStyleDeclaration` provides). -/
def propKeys (conv : String → JSVal) (r : KFRule) : List String :=
  (collectProps conv r).map Prod.fst

/-- `keys = Object.keys(fromProps).filter(k => k in toProps)`. -/
def commonKeys (conv : String → JSVal) (a b : KFRule) : List String :=
  (propKeys conv a).filter (fun k => decide (k ∈ propKeys conv b))

/-- Value of a collected property in a frame (`fromProps[key]`). -/
def propVal (conv : String → JSVal) (r : KFRule) (k : String) : JSVal :=
  ((collectProps conv r).lookup k).getD JSVal.undef

/-- One `animateLerp` invocation scheduled by `KeyFrameAnimationLerp`: the
consecutive-pair index it belongs to, the property key, the wall-clock start
time, the requested duration (the pair's time delta), the time the animation
takes to settle (`0` for endpoint values that `animateLerp` resolves
instantly), and the endpoint values. -/
structure TimedAnim where
  pairIdx : ℕ
  key : String
  startT : ℚ
  reqDur : ℚ
  settle : ℚ
  fromVal : JSVal
  toVal : JSVal
deriving DecidableEq

/-- Settle time of one `animateLerp` call with positive finite duration `d`:
the full duration when both endpoints are animatable (number / array), else
instant resolution. -/
def settleTime (fromV toV : JSVal) (d : ℚ) : ℚ :=
  if isAnimatable fromV && isAnimatable toV then d else 0

/-- The `runOnce` loop of `KeyFrameAnimationLerp` over the sorted keyframe
list, with the wall clock made explicit: for each consecutive pair with
positive time delta and at least one common property, one `animateLerp` per
common property starts at the current clock (`Promise.all` runs them in
parallel); the loop `await`s them all before the next pair, advancing the
clock by the longest settle time.  Pairs with `segmentMs <= 0` or no common
property are skipped (`continue`).  Returns the schedule and the final
clock. -/
def runPairs (conv : String → JSVal) (dur : ℚ) :
    ℕ → ℚ → List KFRule → List TimedAnim × ℚ
  | _, clock, [] => ([], clock)
  | _, clock, [_] => ([], clock)
  | i, clock, a :: b :: rest =>
    let t0 := parseKeyframeTime a.keyText dur
    let t1 := parseKeyframeTime b.keyText dur
    let seg := t1 - t0
    if seg ≤ 0 then runPairs conv dur (i + 1) clock (b :: rest)
    else
      let ks := commonKeys conv a b
      if ks = [] then runPairs conv dur (i + 1) clock (b :: rest)
      else
        let anims := ks.map fun k =>
          let fv := propVal conv a k
          let tv := propVal conv b k
          TimedAnim.mk i k clock seg (settleTime fv tv seg) fv tv
        let maxSettle := (anims.map TimedAnim.settle).foldr max 0
        let rest2 := runPairs conv dur (i + 1) (clock + maxSettle) (b :: rest)
        (anims ++ rest2.1, rest2.2)

/-- The iteration loop of `KeyFrameAnimationLerp` for a finite count: each
`runOnce` is awaited before the next starts. -/
def runIterationsKF (conv : String → JSVal) (dur : ℚ) (sorted : List KFRule) :
    ℕ → ℚ → List TimedAnim
  | 0, _ => []
  | n + 1, clock =>
    let one := runPairs conv dur 0 clock sorted
    one.1 ++ runIterationsKF conv dur sorted n one.2

/-- Iteration count of an `--animation` config: a number or CSS `infinite`. -/
inductive IterCount where
  | count (n : ℤ)
  | infinite
deriving DecidableEq

/-- The `--animation` config produced by `parseAnimationCSS` (artist.js);
`duration = none` models a `NaN` parse result. -/
structure AnimationCfg where
  name : String
  duration : Option ℚ
  iteration : IterCount
  timingFun : String
deriving DecidableEq

/-- `parseAnimationCSS` from artist.js: the whole value is trimmed and
lowercased, the first whitespace token becomes the keyframe-sequence name,
then an optional duration token (`ms` / `s` suffix or bare milliseconds,
default 1000), an `infinite` / `infinity` token or a trailing positive
integer iteration count (default 1), and the remaining tokens joined as the
timing function (default `linear`). -/
def parseAnimationCSS (value : String) : Option AnimationCfg :=
  let lower := toLowerStr (jsTrim value)
  if lower = "" ∨ lower = "none" then none
  else
    match splitWS lower with
    | [] => none
    | nameToken :: parts0 =>
      if nameToken = "" then none
      else
        let durParts : Option ℚ × List String :=
          match parts0 with
          | [] => (some 1000, [])
          | timeToken :: rest =>
            if strAny timeToken Char.isDigit then
              (if strEndsWith timeToken "ms" then parseFloatQ timeToken
               else if strEndsWith timeToken "s" then (parseFloatQ timeToken).map (· * 1000)
               else parseFloatQ timeToken, rest)
            else (some 1000, parts0)
        let parts1 := durParts.2
        let iterParts : IterCount × List String :=
          match parts1.findIdx? (fun t => t == "infinite" || t == "infinity") with
          | some i => (.infinite, parts1.eraseIdx i)
          | none =>
            match parts1.getLast? with
            | none => (.count 1, parts1)
            | some lastTok =>
              match parseIntQ lastTok with
              | some n => if 0 < n then (.count n, parts1.dropLast) else (.count 1, parts1)
              | none => (.count 1, parts1)
        let timingFun :=
          if iterParts.2 = [] then "linear" else strJoinSpace iterParts.2
        some ⟨nameToken, durParts.1, iterParts.1, timingFun⟩

/-- `getAnimationMap` from utils.js: rescan the stylesheets (the gathered
`@keyframes` map, keyed by the rule's declared name, is the explicit
argument) and look the name up with `Map.get` — case-sensitively. -/
def getAnimationMap (allKeyFrames : List (String × List KFRule))
    (animName : String) : Option (List KFRule) :=
  if animName = "" then none
  else allKeyFrames.lookup animName

/-- `KeyFrameAnimationLerp(object, animationObj)` from Train.js as a schedule
of `animateLerp` invocations: guard on a falsy name or duration, look the
keyframe rule up by name (an unknown name logs an error and schedules
nothing), sort the keyframes by resolved time, then run the pair loop once
per iteration.  `none` models the deliberately never-resolving run of an
`infinite` iteration count. -/
def KeyFrameAnimationLerp (allKeyFrames : List (String × List KFRule))
    (conv : String → JSVal) (cfg : AnimationCfg) : Option (List TimedAnim) :=
  if cfg.name = "" then some []
  else
    match cfg.duration with
    | none => some []
    | some d =>
      if d = 0 then some []
      else
        match getAnimationMap allKeyFrames cfg.name with
        | none => some []
        | some rules =>
          let sorted := sortKFRules d rules
          match cfg.iteration with
          | .infinite => none
          | .count n =>
            let total : ℤ := if n = 0 then 1 else n
            some (runIterationsKF conv d sorted total.toNat 0)

theorem char_toNat_ofNat_valid (n : ℕ) (h : n.isValidChar) :
    (Char.ofNat n).toNat = n := by
  unfold Char.ofNat
  rw [dif_pos h]
  rfl

theorem char_isUpper_iff (c : Char) :
    c.isUpper = true ↔ 65 ≤ c.toNat ∧ c.toNat ≤ 90 := by
  unfold Char.isUpper
  rw [Bool.and_eq_true, decide_eq_true_iff, decide_eq_true_iff]
  rw [ge_iff_le, UInt32.le_def, UInt32.le_def, BitVec.le_def, BitVec.le_def]
  exact Iff.rfl

theorem isUpper_toLower (c : Char) : (Char.toLower c).isUpper = false := by
  simp only [Char.toLower]
  split
  next h =>
    obtain ⟨h1, h2⟩ := h
    have hvalid : (Char.toNat c + 32).isValidChar := by
      left
      omega
    have ht : (Char.ofNat (Char.toNat c + 32)).toNat = Char.toNat c + 32 :=
      char_toNat_ofNat_valid _ hvalid
    by_contra hne
    rw [Bool.not_eq_false, char_isUpper_iff, ht] at hne
    omega
  next h =>
    by_contra hne
    rw [Bool.not_eq_false, char_isUpper_iff] at hne
    exact h hne

/-- Whether a string contains an ASCII uppercase letter. -/
def hasUpperStr (s : String) : Bool :=
  s.data.any Char.isUpper

theorem tokenizeByAcc_subset (p : Char → Bool) :
    ∀ (cs : List Char) (acc : List Char), ∀ t ∈ tokenizeByAcc p cs acc,
      ∀ c ∈ t, c ∈ acc ∨ c ∈ cs := by
  intro cs
  induction cs with
  | nil =>
    intro acc t ht c hc
    by_cases ha : acc = []
    · simp [tokenizeByAcc, ha] at ht
    · rw [tokenizeByAcc, if_neg ha] at ht
      have := List.mem_singleton.mp ht
      subst this
      exact Or.inl (List.mem_reverse.mp hc)
  | cons x rest ih =>
    intro acc t ht c hc
    rw [tokenizeByAcc] at ht
    by_cases hp : p x = true
    · rw [if_pos hp] at ht
      by_cases ha : acc = []
      · rw [if_pos ha] at ht
        rcases ih [] t ht c hc with h | h
        · simp at h
        · exact Or.inr (List.mem_cons_of_mem x h)
      · rw [if_neg ha] at ht
        rcases List.mem_cons.mp ht with rfl | ht2
        · exact Or.inl (List.mem_reverse.mp hc)
        · rcases ih [] t ht2 c hc with h | h
          · simp at h
          · exact Or.inr (List.mem_cons_of_mem x h)
    · rw [if_neg hp] at ht
      rcases ih (x :: acc) t ht c hc with h | h
      · rcases List.mem_cons.mp h with hxc | h2
        · subst hxc
          exact Or.inr (List.mem_cons_self _ _)
        · exact Or.inl h2
      · exact Or.inr (List.mem_cons_of_mem x h)

theorem tokenizeWS_subset (cs : List Char) (t : List Char) (ht : t ∈ tokenizeWS cs) :
    ∀ c ∈ t, c ∈ cs := by
  intro c hc
  rcases tokenizeByAcc_subset Char.isWhitespace cs [] t ht c hc with h | h
  · simp at h
  · exact h

/-- Every token produced by splitting a lowercased string is free of
uppercase letters. -/
theorem hasUpperStr_splitWS_toLower (s : String) (t : String)
    (ht : t ∈ splitWS (toLowerStr s)) : hasUpperStr t = false := by
  unfold splitWS at ht
  rw [List.mem_map] at ht
  obtain ⟨l, hl, rfl⟩ := ht
  unfold hasUpperStr
  rw [List.any_eq_false]
  intro c hc
  have hcin : c ∈ (toLowerStr s).data := tokenizeWS_subset _ l hl c hc
  unfold toLowerStr at hcin
  rw [show (String.mk (s.data.map Char.toLower)).data = s.data.map Char.toLower from rfl,
    List.mem_map] at hcin
  obtain ⟨c0, _, rfl⟩ := hcin
  simp [isUpper_toLower]

/-- C10: `parseAnimationCSS` lowercases the whole `--animation` value before
extracting the keyframe-sequence name (the parsed name is the first
whitespace token of the lowercased value, hence contains no uppercase
letter), while keyframe lookup by name is case-sensitive; consequently a
config referencing a keyframe sequence whose declared name contains an
uppercase letter never finds that sequence and the animation run schedules
nothing. -/
theorem parseAnimationCSS_case_mismatch (value : String) (cfg : AnimationCfg)
    (declaredName : String) (rules : List KFRule) (conv : String → JSVal)
    (hparse : parseAnimationCSS value = some cfg)
    (hupper : hasUpperStr declaredName = true) :
    (splitWS (toLowerStr (jsTrim value))).headD "" = cfg.name ∧
    hasUpperStr cfg.name = false ∧
    cfg.name ≠ declaredName ∧
    getAnimationMap [(declaredName, rules)] cfg.name = none ∧
    KeyFrameAnimationLerp [(declaredName, rules)] conv cfg = some [] := by
  have hname : cfg.name ∈ splitWS (toLowerStr (jsTrim value)) ∧
      (splitWS (toLowerStr (jsTrim value))).headD "" = cfg.name := by
    unfold parseAnimationCSS at hparse
    by_cases h0 : toLowerStr (jsTrim value) = "" ∨ toLowerStr (jsTrim value) = "none"
    · rw [if_pos h0] at hparse
      exact absurd hparse (by simp)
    · rw [if_neg h0] at hparse
      cases hsp : splitWS (toLowerStr (jsTrim value)) with
      | nil =>
        rw [hsp] at hparse
        simp at hparse
      | cons nameToken parts0 =>
        rw [hsp] at hparse
        dsimp only at hparse
        by_cases hnt : nameToken = ""
        · rw [if_pos hnt] at hparse
          exact absurd hparse (by simp)
        · rw [if_neg hnt] at hparse
          have hnm : cfg.name = nameToken := by
            have h2 := congrArg (fun o => (o.map AnimationCfg.name).getD "") hparse
            simpa using h2.symm
          rw [hnm]
          exact ⟨List.mem_cons_self _ _, rfl⟩
  obtain ⟨hmem, hhead⟩ := hname
  have hlow : hasUpperStr cfg.name = false := hasUpperStr_splitWS_toLower _ _ hmem
  have hne : cfg.name ≠ declaredName := by
    intro h
    rw [h, hupper] at hlow
    exact Bool.true_eq_false.mp hlow
  have hlook : getAnimationMap [(declaredName, rules)] cfg.name = none := by
    unfold getAnimationMap
    by_cases hz : cfg.name = ""
    · rw [if_pos hz]
    · rw [if_neg hz]
      have hb : (cfg.name == declaredName) = false := by simp [hne]
      simp [List.lookup, hb]
  refine ⟨hhead, hlow, hne, hlook, ?_⟩
  unfold KeyFrameAnimationLerp
  by_cases hz : cfg.name = ""
  · rw [if_pos hz]
  · rw [if_neg hz]
    cases hdur : cfg.duration with
    | none => rfl
    | some d =>
      by_cases hd : d = 0
      · simp [hd]
      · simp [hd, hlook]

/-- Witness for C10: a `--animation: MySpin 2s` declaration parses to name
`myspin`, and the run against a sequence declared as `MySpin` schedules
nothing. -/
theorem parseAnimationCSS_case_mismatch_witness :
    hasUpperStr "MySpin" = true ∧
    KeyFrameAnimationLerp [("MySpin", [KFRule.mk "from" [("--position-x", "0")]])]
      (fun _ => JSVal.undef)
      ⟨"myspin", some 1000, .count 1, "linear"⟩ = some [] := by
  refine ⟨by decide, ?_⟩
  exact (parseAnimationCSS_case_mismatch "MySpin"
    ⟨"myspin", some 1000, .count 1, "linear"⟩ "MySpin"
    [KFRule.mk "from" [("--position-x", "0")]] (fun _ => JSVal.undef)
    (by decide) (by decide)).2.2.2.2

/-- Time delta of a consecutive keyframe pair (`segmentMs = t1 - t0`). -/
def pairDelta (dur : ℚ) (a b : KFRule) : ℚ :=
  parseKeyframeTime b.keyText dur - parseKeyframeTime a.keyText dur

theorem foldr_max_nonneg (l : List ℚ) : 0 ≤ l.foldr max 0 := by
  induction l with
  | nil => simp
  | cons y ys ih => exact le_trans ih (le_max_right _ _)

theorem le_foldr_max (l : List ℚ) (x : ℚ) (hx : x ∈ l) : x ≤ l.foldr max 0 := by
  induction l with
  | nil => cases hx
  | cons y ys ih =>
    rcases List.mem_cons.mp hx with h | h
    · rw [h]
      exact le_max_left _ _
    · exact le_trans (ih h) (le_max_right _ _)

theorem runPairs_clock_le (conv : String → JSVal) (dur : ℚ) :
    ∀ (rs : List KFRule) (i : ℕ) (clock : ℚ),
      clock ≤ (runPairs conv dur i clock rs).2 := by
  intro rs
  induction rs with
  | nil =>
    intro i clock
    simp [runPairs]
  | cons hd tl ih =>
    intro i clock
    match tl with
    | [] => simp [runPairs]
    | b :: rest =>
      simp only [runPairs]
      by_cases hseg :
        parseKeyframeTime b.keyText dur - parseKeyframeTime hd.keyText dur ≤ 0
      · rw [if_pos hseg]
        exact ih (i + 1) clock
      · rw [if_neg hseg]
        by_cases hks : commonKeys conv hd b = []
        · rw [if_pos hks]
          exact ih (i + 1) clock
        · rw [if_neg hks]
          refine le_trans ?_ (ih (i + 1) _)
          have := foldr_max_nonneg (((commonKeys conv hd b).map fun k =>
            TimedAnim.mk i k clock
              (parseKeyframeTime b.keyText dur - parseKeyframeTime hd.keyText dur)
              (settleTime (propVal conv hd k) (propVal conv b k)
                (parseKeyframeTime b.keyText dur - parseKeyframeTime hd.keyText dur))
              (propVal conv hd k) (propVal conv b k)).map TimedAnim.settle)
          linarith

theorem runPairs_mem (conv : String → JSVal) (dur : ℚ) :
    ∀ (rs : List KFRule) (i : ℕ) (clock : ℚ) (a : TimedAnim),
      a ∈ (runPairs conv dur i clock rs).1 →
      i ≤ a.pairIdx ∧ clock ≤ a.startT ∧
      a.startT + a.settle ≤ (runPairs conv dur i clock rs).2 ∧
      ∃ fr to2, rs.get? (a.pairIdx - i) = some fr ∧
        rs.get? (a.pairIdx - i + 1) = some to2 ∧
        0 < pairDelta dur fr to2 ∧ a.reqDur = pairDelta dur fr to2 ∧
        a.key ∈ commonKeys conv fr to2 ∧
        a.fromVal = propVal conv fr a.key ∧ a.toVal = propVal conv to2 a.key ∧
        a.settle = settleTime a.fromVal a.toVal (pairDelta dur fr to2) := by
  intro rs
  induction rs with
  | nil =>
    intro i clock a ha
    simp [runPairs] at ha
  | cons hd tl ih =>
    intro i clock a ha
    match tl with
    | [] => simp [runPairs] at ha
    | b :: rest =>
      simp only [runPairs] at ha ⊢
      by_cases hseg :
        parseKeyframeTime b.keyText dur - parseKeyframeTime hd.keyText dur ≤ 0
      · rw [if_pos hseg] at ha ⊢
        obtain ⟨h1, h2, h3, fr, to2, hfr, hto, hrest⟩ := ih (i + 1) clock a ha
        refine ⟨by omega, h2, h3, fr, to2, ?_, ?_, hrest⟩
        · have hk : a.pairIdx - i = (a.pairIdx - (i + 1)) + 1 := by omega
          rw [hk]
          simpa using hfr
        · have hk : a.pairIdx - i + 1 = (a.pairIdx - (i + 1) + 1) + 1 := by omega
          rw [hk]
          simpa using hto
      · rw [if_neg hseg] at ha ⊢
        by_cases hks : commonKeys conv hd b = []
        · rw [if_pos hks] at ha ⊢
          obtain ⟨h1, h2, h3, fr, to2, hfr, hto, hrest⟩ := ih (i + 1) clock a ha
          refine ⟨by omega, h2, h3, fr, to2, ?_, ?_, hrest⟩
          · have hk : a.pairIdx - i = (a.pairIdx - (i + 1)) + 1 := by omega
            rw [hk]
            simpa using hfr
          · have hk : a.pairIdx - i + 1 = (a.pairIdx - (i + 1) + 1) + 1 := by omega
            rw [hk]
            simpa using hto
        · rw [if_neg hks] at ha ⊢
          rw [List.mem_append] at ha
          rcases ha with hin | hin
          · rw [List.mem_map] at hin
            obtain ⟨k, hkmem, rfl⟩ := hin
            dsimp only
            have hsettle : settleTime (propVal conv hd k) (propVal conv b k)
                (parseKeyframeTime b.keyText dur - parseKeyframeTime hd.keyText dur) ≤
                (((commonKeys conv hd b).map fun k2 =>
                  TimedAnim.mk i k2 clock
                    (parseKeyframeTime b.keyText dur - parseKeyframeTime hd.keyText dur)
                    (settleTime (propVal conv hd k2) (propVal conv b k2)
                      (parseKeyframeTime b.keyText dur - parseKeyframeTime hd.keyText dur))
                    (propVal conv hd k2) (propVal conv b k2)).map
                    TimedAnim.settle).foldr max 0 := by
              apply le_foldr_max
              rw [List.map_map, List.mem_map]
              exact ⟨k, hkmem, rfl⟩
            refine ⟨le_refl i, le_refl clock, ?_, hd, b, by simp, by simp, ?_, rfl,
              hkmem, rfl, rfl, rfl⟩
            · refine le_trans ?_ (runPairs_clock_le conv dur (b :: rest) (i + 1) _)
              linarith
            · unfold pairDelta
              linarith [lt_of_not_le hseg]
          · obtain ⟨h1, h2, h3, fr, to2, hfr, hto, hrest⟩ := ih (i + 1) _ a hin
            have hms : (0 : ℚ) ≤ (((commonKeys conv hd b).map fun k2 =>
                TimedAnim.mk i k2 clock
                  (parseKeyframeTime b.keyText dur - parseKeyframeTime hd.keyText dur)
                  (settleTime (propVal conv hd k2) (propVal conv b k2)
                    (parseKeyframeTime b.keyText dur - parseKeyframeTime hd.keyText dur))
                  (propVal conv hd k2) (propVal conv b k2)).map
                  TimedAnim.settle).foldr max 0 := foldr_max_nonneg _
            refine ⟨by omega, by linarith, h3, fr, to2, ?_, ?_, hrest⟩
            · have hk : a.pairIdx - i = (a.pairIdx - (i + 1)) + 1 := by omega
              rw [hk]
              simpa using hfr
            · have hk : a.pairIdx - i + 1 = (a.pairIdx - (i + 1) + 1) + 1 := by omega
              rw [hk]
              simpa using hto

theorem runPairs_order (conv : String → JSVal) (dur : ℚ) :
    ∀ (rs : List KFRule) (i : ℕ) (clock : ℚ) (a b2 : TimedAnim),
      a ∈ (runPairs conv dur i clock rs).1 →
      b2 ∈ (runPairs conv dur i clock rs).1 →
      (a.pairIdx = b2.pairIdx → a.startT = b2.startT) ∧
      (a.pairIdx < b2.pairIdx → a.startT + a.settle ≤ b2.startT) := by
  intro rs
  induction rs with
  | nil =>
    intro i clock a b2 ha _
    simp [runPairs] at ha
  | cons hd tl ih =>
    intro i clock a b2 ha hb
    match tl with
    | [] => simp [runPairs] at ha
    | b :: rest =>
      simp only [runPairs] at ha hb
      by_cases hseg :
        parseKeyframeTime b.keyText dur - parseKeyframeTime hd.keyText dur ≤ 0
      · rw [if_pos hseg] at ha hb
        exact ih (i + 1) clock a b2 ha hb
      · rw [if_neg hseg] at ha hb
        by_cases hks : commonKeys conv hd b = []
        · rw [if_pos hks] at ha hb
          exact ih (i + 1) clock a b2 ha hb
        · rw [if_neg hks] at ha hb
          rw [List.mem_append] at ha hb
          rcases ha with hina | hina <;> rcases hb with hinb | hinb
          · rw [List.mem_map] at hina hinb
            obtain ⟨k1, _, rfl⟩ := hina
            obtain ⟨k2, _, rfl⟩ := hinb
            exact ⟨fun _ => rfl, fun h => absurd h (by dsimp only; omega)⟩
          · rw [List.mem_map] at hina
            obtain ⟨k1, hk1, rfl⟩ := hina
            obtain ⟨h1, h2, _, _⟩ := runPairs_mem conv dur (b :: rest) (i + 1) _ b2 hinb
            have hsettle : settleTime (propVal conv hd k1) (propVal conv b k1)
                (parseKeyframeTime b.keyText dur - parseKeyframeTime hd.keyText dur) ≤
                (((commonKeys conv hd b).map fun k2 =>
                  TimedAnim.mk i k2 clock
                    (parseKeyframeTime b.keyText dur - parseKeyframeTime hd.keyText dur)
                    (settleTime (propVal conv hd k2) (propVal conv b k2)
                      (parseKeyframeTime b.keyText dur - parseKeyframeTime hd.keyText dur))
                    (propVal conv hd k2) (propVal conv b k2)).map
                    TimedAnim.settle).foldr max 0 := by
              apply le_foldr_max
              rw [List.map_map, List.mem_map]
              exact ⟨k1, hk1, rfl⟩
            refine ⟨fun hEq => absurd hEq (by dsimp only at *; omega), fun _ => ?_⟩
            dsimp only at h2 ⊢
            linarith
          · rw [List.mem_map] at hinb
            obtain ⟨k2, hk2, rfl⟩ := hinb
            obtain ⟨h1, _, _, _⟩ := runPairs_mem conv dur (b :: rest) (i + 1) _ a hina
            exact ⟨fun hEq => absurd hEq (by dsimp only at *; omega),
              fun hlt => absurd hlt (by dsimp only at *; omega)⟩
          · exact ih (i + 1) _ a b2 hina hinb

theorem runPairs_count (conv : String → JSVal) (dur : ℚ) :
    ∀ (rs : List KFRule) (i : ℕ) (clock : ℚ) (j : ℕ) (fr to2 : KFRule),
      rs.get? j = some fr → rs.get? (j + 1) = some to2 →
      0 < pairDelta dur fr to2 →
      ∀ k : String,
        ((runPairs conv dur i clock rs).1.countP
          (fun a => decide (a.pairIdx = i + j ∧ a.key = k))) =
        (commonKeys conv fr to2).count k := by
  intro rs
  induction rs with
  | nil =>
    intro i clock j fr to2 hfr _ _ _
    simp at hfr
  | cons hd tl ih =>
    intro i clock j fr to2 hfr hto hdelta k
    match tl with
    | [] =>
      match j with
      | 0 => simp at hto
      | j' + 1 => simp at hfr
    | b :: rest =>
      simp only [runPairs]
      match j with
      | 0 =>
        rw [List.get?_cons_zero] at hfr
        injection hfr with hfr
        subst hfr
        rw [show (0 : ℕ) + 1 = 1 from rfl, List.get?_cons_succ, List.get?_cons_zero] at hto
        injection hto with hto
        subst hto
        have hseg :
            ¬ parseKeyframeTime b.keyText dur - parseKeyframeTime hd.keyText dur ≤ 0 := by
          unfold pairDelta at hdelta
          linarith
        rw [if_neg hseg]
        by_cases hks : commonKeys conv hd b = []
        · rw [if_pos hks]
          rw [hks]
          simp only [List.count_nil]
          rw [List.countP_eq_zero]
          intro a ha
          obtain ⟨h1, _, _, _⟩ := runPairs_mem conv dur (b :: rest) (i + 1) clock a ha
          simp only [decide_eq_true_eq, not_and]
          intro hEq
          omega
        · rw [if_neg hks]
          rw [List.countP_append]
          have hanims : (((commonKeys conv hd b).map fun k2 =>
              TimedAnim.mk i k2 clock
                (parseKeyframeTime b.keyText dur - parseKeyframeTime hd.keyText dur)
                (settleTime (propVal conv hd k2) (propVal conv b k2)
                  (parseKeyframeTime b.keyText dur - parseKeyframeTime hd.keyText dur))
                (propVal conv hd k2) (propVal conv b k2)).countP
              (fun a => decide (a.pairIdx = i + 0 ∧ a.key = k))) =
              (commonKeys conv hd b).count k := by
            rw [List.countP_map, List.count]
            apply List.countP_congr
            intro k2 _
            simp [beq_iff_eq]
          have hrest : ((runPairs conv dur (i + 1)
              (clock + (((commonKeys conv hd b).map fun k2 =>
                TimedAnim.mk i k2 clock
                  (parseKeyframeTime b.keyText dur - parseKeyframeTime hd.keyText dur)
                  (settleTime (propVal conv hd k2) (propVal conv b k2)
                    (parseKeyframeTime b.keyText dur - parseKeyframeTime hd.keyText dur))
                  (propVal conv hd k2) (propVal conv b k2)).map
                  TimedAnim.settle).foldr max 0)
              (b :: rest)).1.countP
              (fun a => decide (a.pairIdx = i + 0 ∧ a.key = k))) = 0 := by
            rw [List.countP_eq_zero]
            intro a ha
            obtain ⟨h1, _, _, _⟩ := runPairs_mem conv dur (b :: rest) (i + 1) _ a ha
            simp only [decide_eq_true_eq, not_and]
            intro hEq
            omega
          rw [hanims, hrest]
          omega
      | j' + 1 =>
        rw [List.get?_cons_succ] at hfr
        rw [show j' + 1 + 1 = (j' + 1) + 1 from rfl, List.get?_cons_succ] at hto
        have hshift : i + (j' + 1) = (i + 1) + j' := by omega
        by_cases hseg :
          parseKeyframeTime b.keyText dur - parseKeyframeTime hd.keyText dur ≤ 0
        · rw [if_pos hseg, hshift]
          exact ih (i + 1) clock j' fr to2 hfr hto hdelta k
        · rw [if_neg hseg]
          by_cases hks : commonKeys conv hd b = []
          · rw [if_pos hks, hshift]
            exact ih (i + 1) clock j' fr to2 hfr hto hdelta k
          · rw [if_neg hks]
            rw [List.countP_append]
            have hanims : (((commonKeys conv hd b).map fun k2 =>
                TimedAnim.mk i k2 clock
                  (parseKeyframeTime b.keyText dur - parseKeyframeTime hd.keyText dur)
                  (settleTime (propVal conv hd k2) (propVal conv b k2)
                    (parseKeyframeTime b.keyText dur - parseKeyframeTime hd.keyText dur))
                  (propVal conv hd k2) (propVal conv b k2)).countP
                (fun a => decide (a.pairIdx = i + (j' + 1) ∧ a.key = k))) = 0 := by
              rw [List.countP_eq_zero]
              intro a ha
              rw [List.mem_map] at ha
              obtain ⟨k2, _, rfl⟩ := ha
              simp only [decide_eq_true_eq, not_and]
              intro hEq
              omega
            rw [hanims, hshift]
            rw [ih (i + 1) _ j' fr to2 hfr hto hdelta k]
            omega

theorem strEndsWith_ms_not_percent (t : String) (h : strEndsWith t "ms" = true) :
    strEndsWith t "%" = false := by
  unfold strEndsWith at h ⊢
  rw [List.isSuffixOf] at h ⊢
  cases htr : t.data.reverse with
  | nil =>
    rw [htr] at h
    simp [List.isPrefixOf] at h
  | cons c cs =>
    rw [htr] at h
    rw [show ("ms".data : List Char).reverse = ['s', 'm'] from by decide] at h
    rw [show ("%".data : List Char).reverse = ['%'] from by decide]
    simp only [List.isPrefixOf, Bool.and_eq_true, beq_iff_eq] at h
    obtain ⟨hc, _⟩ := h
    subst hc
    simp [List.isPrefixOf]

/-- C2 (amended): in a keyframe sequence run, each keyframe timestamp
resolves as `from` → 0, `to` → the total duration, a percentage to that
fraction of the total, an explicit `ms` literal to that millisecond value and
a bare number to milliseconds; the keyframes are sorted ascending by resolved
time; and for each consecutive pair of sorted keyframes **with positive time
delta**, exactly one animation per property present in both frames runs over
that pair's delta, in parallel across properties (all animations of a pair
share one start instant) and sequentially across pairs (an animation of a
later pair starts no earlier than every animation of an earlier pair has
settled); pairs with non-positive delta or no common property are skipped
entirely, and a property present in only one frame of a pair is never
animated for that pair. -/
theorem keyframe_schedule_spec (conv : String → JSVal) (dur : ℚ)
    (rules : List KFRule) :
    parseKeyframeTime "from" dur = 0 ∧
    parseKeyframeTime "to" dur = dur ∧
    (∀ s v, s ≠ "" → strEndsWith (toLowerStr (jsTrim s)) "%" = true →
      parseFloatQ (toLowerStr (jsTrim s)) = some v →
      parseKeyframeTime s dur = v / 100 * dur) ∧
    (∀ s v, s ≠ "" → strEndsWith (toLowerStr (jsTrim s)) "ms" = true →
      parseFloatQ (toLowerStr (jsTrim s)) = some v →
      parseKeyframeTime s dur = v) ∧
    (∀ s v, s ≠ "" → toLowerStr (jsTrim s) ≠ "from" → toLowerStr (jsTrim s) ≠ "to" →
      strEndsWith (toLowerStr (jsTrim s)) "%" = false →
      strEndsWith (toLowerStr (jsTrim s)) "ms" = false →
      jsNumberQ (toLowerStr (jsTrim s)) = some v →
      parseKeyframeTime s dur = v) ∧
    List.Sorted (kfLE dur) (sortKFRules dur rules) ∧
    (∀ a ∈ (runPairs conv dur 0 0 (sortKFRules dur rules)).1,
      ∃ fr to2, (sortKFRules dur rules).get? a.pairIdx = some fr ∧
        (sortKFRules dur rules).get? (a.pairIdx + 1) = some to2 ∧
        0 < pairDelta dur fr to2 ∧ a.reqDur = pairDelta dur fr to2 ∧
        a.key ∈ commonKeys conv fr to2 ∧
        a.fromVal = propVal conv fr a.key ∧ a.toVal = propVal conv to2 a.key) ∧
    (∀ a b2, a ∈ (runPairs conv dur 0 0 (sortKFRules dur rules)).1 →
      b2 ∈ (runPairs conv dur 0 0 (sortKFRules dur rules)).1 →
      (a.pairIdx = b2.pairIdx → a.startT = b2.startT) ∧
      (a.pairIdx < b2.pairIdx → a.startT + a.settle ≤ b2.startT)) ∧
    (∀ j fr to2, (sortKFRules dur rules).get? j = some fr →
      (sortKFRules dur rules).get? (j + 1) = some to2 →
      0 < pairDelta dur fr to2 → (commonKeys conv fr to2).Nodup →
      ∀ k ∈ commonKeys conv fr to2,
        ((runPairs conv dur 0 0 (sortKFRules dur rules)).1.countP
          (fun a => decide (a.pairIdx = j ∧ a.key = k))) = 1) := by
  refine ⟨?_, ?_, ?_, ?_, ?_, ?_, ?_, ?_, ?_⟩
  · simp [parseKeyframeTime, show toLowerStr (jsTrim "from") = "from" from by decide]
  · simp [parseKeyframeTime, show toLowerStr (jsTrim "to") = "to" from by decide]
  · intro s v hs hpct hpf
    have h1 : toLowerStr (jsTrim s) ≠ "from" := by
      intro h
      rw [h] at hpct
      exact absurd hpct (by decide)
    have h2 : toLowerStr (jsTrim s) ≠ "to" := by
      intro h
      rw [h] at hpct
      exact absurd hpct (by decide)
    simp only [parseKeyframeTime]
    rw [if_neg hs, if_neg h1, if_neg h2, if_pos hpct, hpf]
  · intro s v hs hms hpf
    have h1 : toLowerStr (jsTrim s) ≠ "from" := by
      intro h
      rw [h] at hms
      exact absurd hms (by decide)
    have h2 : toLowerStr (jsTrim s) ≠ "to" := by
      intro h
      rw [h] at hms
      exact absurd hms (by decide)
    have h3 : ¬ strEndsWith (toLowerStr (jsTrim s)) "%" = true := by
      rw [strEndsWith_ms_not_percent _ hms]
      simp
    simp only [parseKeyframeTime]
    rw [if_neg hs, if_neg h1, if_neg h2, if_neg h3, if_pos hms, hpf]
  · intro s v hs h1 h2 hpct hms hnum
    simp only [parseKeyframeTime]
    rw [if_neg hs, if_neg h1, if_neg h2, if_neg (by rw [hpct]; simp),
      if_neg (by rw [hms]; simp), hnum]
  · exact List.sorted_insertionSort (kfLE dur) rules
  · intro a ha
    obtain ⟨_, _, _, fr, to2, hfr, hto, hd, hrd, hk, hfv, htv, _⟩ :=
      runPairs_mem conv dur (sortKFRules dur rules) 0 0 a ha
    rw [Nat.sub_zero] at hfr hto
    exact ⟨fr, to2, hfr, hto, hd, hrd, hk, hfv, htv⟩
  · intro a b2 ha hb
    exact runPairs_order conv dur (sortKFRules dur rules) 0 0 a b2 ha hb
  · intro j fr to2 hfr hto hd hnd k hk
    have := runPairs_count conv dur (sortKFRules dur rules) 0 0 j fr to2 hfr hto hd k
    rw [Nat.zero_add] at this
    rw [this]
    exact List.count_eq_one_of_mem hnd hk

/-- Witness for C2 (amended): a `50%` keyframe selector resolves to half the
total duration. -/
theorem keyframe_schedule_spec_witness :
    parseKeyframeTime "50%" 1000 = 50 / 100 * 1000 :=
  (keyframe_schedule_spec (fun _ => JSVal.undef) 1000 []).2.2.1 "50%" 50
    (by decide) (by decide) (by decide)

/-- C2 counterexample to the claim as stated: two keyframes resolving to the
same time (a duplicate `from` selector, which a `CSSKeyframesRule` can list)
form a consecutive pair whose property `x` is present in both frames, yet the
run schedules no animation at all for that pair: "one animation per property
present in both frames runs over that pair's time delta" fails for pairs with
zero time delta — they are skipped entirely. -/
theorem keyframe_zero_delta_skipped :
    commonKeys (fun _ => JSVal.num 0) (KFRule.mk "from" [("--x", "0")])
      (KFRule.mk "from" [("--x", "5")]) = ["x"] ∧
    sortKFRules 1000
        [KFRule.mk "from" [("--x", "0")], KFRule.mk "from" [("--x", "5")]] =
      [KFRule.mk "from" [("--x", "0")], KFRule.mk "from" [("--x", "5")]] ∧
    (runPairs (fun _ => JSVal.num 0) 1000 0 0
      [KFRule.mk "from" [("--x", "0")], KFRule.mk "from" [("--x", "5")]]).1 = [] := by
  have h0 : parseKeyframeTime "from" (1000 : ℚ) = 0 := by
    simp [parseKeyframeTime, show toLowerStr (jsTrim "from") = "from" from by decide]
  refine ⟨by decide, by decide, ?_⟩
  have hc : parseKeyframeTime "from" (1000 : ℚ) - parseKeyframeTime "from" 1000 ≤ 0 := by
    rw [h0]
    norm_num
  simp only [runPairs]
  rw [if_pos hc]

/-! ### Transition painting (`parseTransitionCSS`, `assignValue` inside
`_apply_rule`, artist.js) -/

/-- Transition config stored on a node by `_apply_rule` (the result of
`parseTransitionCSS`). -/
structure TransitionCfg where
  duration : ℚ
  timingFun : String
deriving DecidableEq

/-- `parseTransitionCSS` from artist.js: trim and lowercase, `none`/empty
clears the config; the first token is the duration (`ms` / `s` suffix or bare
milliseconds), rejected unless positive and finite; the remaining tokens join
into the timing function (default `linear`). -/
def parseTransitionCSS (value : String) : Option TransitionCfg :=
  let lower := toLowerStr (jsTrim value)
  if lower = "" ∨ lower = "none" then none
  else
    match splitWS lower with
    | [] => none
    | timeToken :: parts =>
      let durationMs : Option ℚ :=
        if strEndsWith timeToken "ms" then parseFloatQ timeToken
        else if strEndsWith timeToken "s" then (parseFloatQ timeToken).map (· * 1000)
        else parseFloatQ timeToken
      match durationMs with
      | none => none
      | some d =>
        if d ≤ 0 then none
        else some ⟨d, if parts = [] then "linear" else strJoinSpace parts⟩

/-- The vector read in `assignValue`: `currentRaw.toArray()` when the current
slot value exposes `toArray`, else the raw slot value. -/
def toArrayIfVec : JSVal → JSVal
  | .vec l => .arr l
  | v => v

/-- The animatability test of `assignValue`:
`typeof v === 'number' || Array.isArray(v)`. -/
def isNumberOrJSArray : JSVal → Bool
  | .num _ => true
  | .arr _ => true
  | _ => false

/-- Observable effects of `assignValue`: a property write through
`exchange_rule` and the `TransitionFinished` event dispatch. -/
inductive PaintEv where
  | setVal (v : JSVal)
  | transitionFinished
deriving DecidableEq

/-- `assignValue` from `_apply_rule` (artist.js) as the list of observable
effects: an `undefined` resolved value returns before any write; when a
transition is set with `duration > 0` and both the (vector-converted) current
value and the resolved value are numbers or arrays, the write is delegated to
`animateLerp` over the transition's duration and easing, `onUpdate` writing
each interpolated value through `exchange_rule` and `onComplete` dispatching
`TransitionFinished`; in every other case the resolved value is written
immediately through `exchange_rule`. -/
def assignValue (transition : Option TransitionCfg)
    (currentRaw resolvedValue : JSVal) (start : ℚ) (frames : List ℚ) :
    List PaintEv :=
  if resolvedValue = JSVal.undef then []
  else
    let currentValue := toArrayIfVec currentRaw
    let duration := (transition.map TransitionCfg.duration).getD 0
    let timingFn := (transition.map TransitionCfg.timingFun).getD "linear"
    let animatableHere := transition.isSome && decide (0 < duration) &&
      isNumberOrJSArray currentValue && isNumberOrJSArray resolvedValue
    if animatableHere then
      (animateLerp currentValue resolvedValue (some duration) timingFn start frames).map
        (fun e => match e with
          | .update v _ => PaintEv.setVal v
          | .complete _ => PaintEv.transitionFinished)
    else [PaintEv.setVal resolvedValue]

theorem animateLerpSteps_completes (fromV toV : JSVal) (d : ℚ) (ease : ℚ → ℚ)
    (start : ℚ) :
    ∀ frames : List ℚ, (∃ f ∈ frames, start + d ≤ f) → 0 < d →
      ∃ v, (animateLerpSteps fromV toV d ease start frames).getLast? =
        some (ALEv.complete v) := by
  intro frames
  induction frames with
  | nil =>
    rintro ⟨f, hf, _⟩ _
    cases hf
  | cons now rest ih =>
    rintro ⟨f, hf, hfd⟩ hd
    rw [animateLerpSteps]
    by_cases ht : (now - start) / d ≥ 1
    · rw [if_pos ht]
      have h1 : ¬ ((1 : ℚ) < 1) := lt_irrefl 1
      rw [if_neg h1]
      exact ⟨lerpValue fromV toV (ease 1) lerpNumber, rfl⟩
    · rw [if_neg ht]
      have hlt : (now - start) / d < 1 := lt_of_not_le ht
      rw [if_pos hlt]
      have hfrest : f ∈ rest := by
        rcases List.mem_cons.mp hf with hfe | hfr
        · exfalso
          apply ht
          rw [ge_iff_le, le_div_iff₀ hd]
          subst hfe
          linarith
        · exact hfr
      obtain ⟨v, hv⟩ := ih ⟨f, hfrest, hfd⟩ hd
      refine ⟨v, ?_⟩
      rw [List.getLast?_cons]
      rcases hempty : animateLerpSteps fromV toV d ease start rest with _ | ⟨y, ys⟩
      · rw [hempty] at hv
        simp at hv
      · rw [hempty] at hv
        simp only [List.getLast?_cons] at *
        rw [hv]
        rfl

/-- C1 (amended): at a paint of a non-control declared property, when the
node has an active transition with `duration > 0` and both the current value
(a vector slot read through `toArray`) and the resolved value are numbers or
numeric arrays, the assignment is performed by `animateLerp` from the current
to the new value over the transition's duration and easing, with a
`TransitionFinished` event on completion (last effect once the frames reach
the duration); in every other case with a **defined** resolved value the
resolved value is assigned immediately; an `undefined` resolved value is
discarded without any assignment (the correction), and `parseTransitionCSS`
only ever stores configs with positive duration. -/
theorem assignValue_spec (t : TransitionCfg) (transition : Option TransitionCfg)
    (currentRaw resolvedValue : JSVal) (start : ℚ) (frames : List ℚ) :
    (resolvedValue ≠ JSVal.undef → transition = some t → 0 < t.duration →
      isNumberOrJSArray (toArrayIfVec currentRaw) = true →
      isNumberOrJSArray resolvedValue = true →
      assignValue transition currentRaw resolvedValue start frames =
        (animateLerp (toArrayIfVec currentRaw) resolvedValue (some t.duration)
          t.timingFun start frames).map
          (fun e => match e with
            | .update v _ => PaintEv.setVal v
            | .complete _ => PaintEv.transitionFinished)) ∧
    (resolvedValue ≠ JSVal.undef →
      (transition = none ∨ (transition = some t ∧
        (¬ 0 < t.duration ∨ isNumberOrJSArray (toArrayIfVec currentRaw) = false ∨
          isNumberOrJSArray resolvedValue = false))) →
      assignValue transition currentRaw resolvedValue start frames =
        [PaintEv.setVal resolvedValue]) ∧
    (resolvedValue = JSVal.undef →
      assignValue transition currentRaw resolvedValue start frames = []) ∧
    (∀ v cfg, parseTransitionCSS v = some cfg → 0 < cfg.duration) ∧
    (resolvedValue ≠ JSVal.undef → transition = some t → 0 < t.duration →
      isNumberOrJSArray (toArrayIfVec currentRaw) = true →
      isNumberOrJSArray resolvedValue = true →
      (∃ f ∈ frames, start + t.duration ≤ f) →
      (assignValue transition currentRaw resolvedValue start frames).getLast? =
        some PaintEv.transitionFinished) := by
  have hanim : resolvedValue ≠ JSVal.undef → transition = some t → 0 < t.duration →
      isNumberOrJSArray (toArrayIfVec currentRaw) = true →
      isNumberOrJSArray resolvedValue = true →
      assignValue transition currentRaw resolvedValue start frames =
        (animateLerp (toArrayIfVec currentRaw) resolvedValue (some t.duration)
          t.timingFun start frames).map
          (fun e => match e with
            | .update v _ => PaintEv.setVal v
            | .complete _ => PaintEv.transitionFinished) := by
    intro hres htr hdur hcur hresn
    subst htr
    rw [assignValue, if_neg hres]
    simp [hcur, hresn, hdur]
  refine ⟨hanim, ?_, ?_, ?_, ?_⟩
  · intro hres hother
    rw [assignValue, if_neg hres]
    rcases hother with h | ⟨h, hd⟩
    · subst h
      simp
    · subst h
      rcases hd with hd | hd | hd
      · simp [hd]
      · simp [hd]
      · simp [hd]
  · intro hres
    rw [assignValue, if_pos hres]
  · intro v cfg hparse
    unfold parseTransitionCSS at hparse
    by_cases h0 : toLowerStr (jsTrim v) = "" ∨ toLowerStr (jsTrim v) = "none"
    · rw [if_pos h0] at hparse
      exact absurd hparse (by simp)
    · rw [if_neg h0] at hparse
      cases hsp : splitWS (toLowerStr (jsTrim v)) with
      | nil =>
        rw [hsp] at hparse
        simp at hparse
      | cons timeToken parts =>
        rw [hsp] at hparse
        dsimp only at hparse
        cases hdm : (if strEndsWith timeToken "ms" = true then parseFloatQ timeToken
            else if strEndsWith timeToken "s" = true then
              Option.map (fun x => x * 1000) (parseFloatQ timeToken)
            else parseFloatQ timeToken) with
        | none =>
          rw [hdm] at hparse
          simp at hparse
        | some d =>
          rw [hdm] at hparse
          dsimp only at hparse
          by_cases hd : d ≤ 0
          · rw [if_pos hd] at hparse
            exact absurd hparse (by simp)
          · rw [if_neg hd] at hparse
            have hcfg : cfg.duration = d := by
              have h2 := congrArg (fun o => (o.map TransitionCfg.duration).getD 0) hparse
              simpa using h2.symm
            rw [hcfg]
            linarith
  · intro hres htr hdur hcur hresn hframe
    rw [hanim hres htr hdur hcur hresn]
    have hinstant : ¬ (isAnimatable (toArrayIfVec currentRaw) = false ∨
        isAnimatable resolvedValue = false) := by
      cases hc : toArrayIfVec currentRaw <;> cases hr : resolvedValue <;>
        simp_all [isNumberOrJSArray, isAnimatable]
    rw [animateLerp]
    rw [if_neg (by
      rw [not_or]
      constructor
      · cases hc : toArrayIfVec currentRaw <;> simp_all [isNumberOrJSArray, isAnimatable]
      · cases hr : resolvedValue <;> simp_all [isNumberOrJSArray, isAnimatable])]
    rw [if_neg (not_le.mpr hdur)]
    obtain ⟨v, hv⟩ := animateLerpSteps_completes (toArrayIfVec currentRaw) resolvedValue
      t.duration (getEquation t.timingFun) start frames hframe hdur
    rw [List.getLast?_map, hv]
    rfl

/-- C1 counterexample to the claim as stated: an `undefined` resolved value
(e.g. a failed `#id` cross-node reference) is neither animated nor assigned —
`assignValue` returns before any write, while the claim requires the resolved
value to be assigned immediately in every non-animated case. -/
theorem assignValue_undef_skips :
    assignValue none (JSVal.num 0) JSVal.undef 0 [] = [] ∧
    assignValue none (JSVal.num 0) JSVal.undef 0 [] ≠ [PaintEv.setVal JSVal.undef] := by
  refine ⟨by decide, by decide⟩

/-- Witness for C1 (amended): with no transition, a numeric resolved value is
assigned immediately. -/
theorem assignValue_spec_witness :
    assignValue none (JSVal.num 0) (JSVal.num 5) 0 [] =
      [PaintEv.setVal (JSVal.num 5)] :=
  (assignValue_spec ⟨1, "linear"⟩ none (JSVal.num 0) (JSVal.num 5) 0 []).2.1
    (by decide) (Or.inl rfl)

/-! ### Cell index removal (cell.js `Cell.removeConvict`, utils.js
`fastRemove_arry`) -/

/-- `fastRemove_arry` from utils.js: find the item's index; when present,
overwrite that position with the last element and pop (order not
preserved). -/
def fastRemove_arry (arry : List ℕ) (item : ℕ) : List ℕ :=
  if item ∈ arry then
    (arry.set (arry.indexOf item) (arry.getLast?.getD 0)).dropLast
  else arry

theorem fastRemove_not_mem (a : List ℕ) (item : ℕ) (h : item ∉ a) :
    fastRemove_arry a item = a := if_neg h

theorem fastRemove_cons_ne (x : ℕ) (xs : List ℕ) (item : ℕ) (hx : x ≠ item)
    (hm : item ∈ xs) :
    fastRemove_arry (x :: xs) item = x :: fastRemove_arry xs item := by
  have hne : xs ≠ [] := List.ne_nil_of_mem hm
  obtain ⟨g, hg⟩ : ∃ g, xs.getLast? = some g :=
    ⟨xs.getLast hne, List.getLast?_eq_getLast xs hne⟩
  rw [fastRemove_arry, if_pos (List.mem_cons_of_mem x hm),
      fastRemove_arry, if_pos hm]
  rw [List.indexOf_cons_ne _ (fun h => hx h)]
  have hgl : (x :: xs).getLast? = some g := by
    rw [List.getLast?_cons, hg]
    rfl
  rw [hgl, hg]
  simp only [Option.getD_some]
  rw [show ((x :: xs).set (Nat.succ (xs.indexOf item)) g) = x :: xs.set (xs.indexOf item) g
    from rfl]
  rw [List.dropLast_cons_of_ne_nil]
  intro hcon
  have h2 := congrArg List.length hcon
  simp at h2
  exact hne h2

theorem fastRemove_cons_self (x : ℕ) (xs : List ℕ) :
    fastRemove_arry (x :: xs) x =
      match xs.getLast?, xs.dropLast with
      | none, _ => []
      | some g, ys => g :: ys := by
  rcases List.eq_nil_or_concat xs with hnil | ⟨ys, l, hxs⟩
  · subst hnil
    rw [fastRemove_arry, if_pos (List.mem_cons_self x [])]
    simp
  · rw [List.concat_eq_append] at hxs
    subst hxs
    rw [fastRemove_arry, if_pos (List.mem_cons_self x _)]
    rw [List.indexOf_cons_self]
    have hgl : (x :: (ys ++ [l])).getLast? = some l := by
      rw [List.getLast?_cons, List.getLast?_concat]
      rfl
    rw [hgl]
    simp only [Option.getD_some, List.set_cons_zero]
    rw [show l :: (ys ++ [l]) = (l :: ys) ++ [l] from rfl, List.dropLast_concat]
    rw [List.getLast?_concat, List.dropLast_concat]

theorem mem_fastRemove (item x : ℕ) :
    ∀ (a : List ℕ), a.Nodup → (x ∈ fastRemove_arry a item ↔ x ∈ a ∧ x ≠ item) := by
  intro a
  induction a with
  | nil =>
    intro _
    rw [fastRemove_not_mem _ _ (List.not_mem_nil item)]
    simp
  | cons y ys ih =>
    intro hnd
    obtain ⟨hy_not, hnd2⟩ := List.nodup_cons.mp hnd
    by_cases hy : y = item
    · subst hy
      rw [fastRemove_cons_self]
      rcases List.eq_nil_or_concat ys with hnil | ⟨zs, l, hys⟩
      · subst hnil
        simp
      · rw [List.concat_eq_append] at hys
        subst hys
        rw [List.getLast?_concat, List.dropLast_concat]
        have h1 : y ∉ zs := fun hc => hy_not (List.mem_append_left _ hc)
        have h2 : y ≠ l := fun hc => hy_not (by simp [hc])
        simp only [List.mem_cons, List.mem_append, List.not_mem_nil, or_false]
        constructor
        · rintro (rfl | hxz)
          · exact ⟨Or.inr (Or.inr rfl), fun hc => h2 hc.symm⟩
          · exact ⟨Or.inr (Or.inl hxz), fun hc => h1 (hc ▸ hxz)⟩
        · rintro ⟨rfl | hx2 | rfl, hne⟩
          · exact absurd rfl hne
          · exact Or.inr hx2
          · exact Or.inl rfl
    · by_cases hm : item ∈ ys
      · rw [fastRemove_cons_ne y ys item hy hm]
        have hih := ih hnd2
        simp only [List.mem_cons, hih]
        constructor
        · rintro (rfl | ⟨hx2, hne⟩)
          · exact ⟨Or.inl rfl, fun hc => hy hc⟩
          · exact ⟨Or.inr hx2, hne⟩
        · rintro ⟨rfl | hx2, hne⟩
          · exact Or.inl rfl
          · exact Or.inr ⟨hx2, hne⟩
      · have hni : item ∉ y :: ys := by
          simp only [List.mem_cons]
          rintro (rfl | hc)
          · exact hy rfl
          · exact hm hc
        rw [fastRemove_not_mem _ _ hni]
        constructor
        · intro hx2
          refine ⟨hx2, fun hc => hni (hc ▸ hx2)⟩
        · exact fun h => h.1

theorem nodup_fastRemove (item : ℕ) :
    ∀ (a : List ℕ), a.Nodup → (fastRemove_arry a item).Nodup := by
  intro a
  induction a with
  | nil =>
    intro _
    rw [fastRemove_not_mem _ _ (List.not_mem_nil item)]
    exact List.nodup_nil
  | cons y ys ih =>
    intro hnd
    obtain ⟨hy_not, hnd2⟩ := List.nodup_cons.mp hnd
    by_cases hy : y = item
    · subst hy
      rw [fastRemove_cons_self]
      rcases List.eq_nil_or_concat ys with hnil | ⟨zs, l, hys⟩
      · subst hnil
        simp
      · rw [List.concat_eq_append] at hys
        subst hys
        rw [List.getLast?_concat, List.dropLast_concat]
        have h3 : zs.Nodup ∧ l ∉ zs := by
          have := hnd2
          rw [List.nodup_append] at this
          exact ⟨this.1, fun hc => this.2.2 hc (List.mem_singleton_self l)⟩
        exact List.nodup_cons.mpr ⟨h3.2, h3.1⟩
    · by_cases hm : item ∈ ys
      · rw [fastRemove_cons_ne y ys item hy hm]
        refine List.nodup_cons.mpr ⟨?_, ih hnd2⟩
        intro hyin
        exact hy_not ((mem_fastRemove item y ys hnd2).mp hyin).1
      · have hni : item ∉ y :: ys := by
          simp only [List.mem_cons]
          rintro (rfl | hc)
          · exact hy rfl
          · exact hm hc
        rw [fastRemove_not_mem _ _ hni]
        exact hnd

/-- A scene-graph node ("convict") as consumed by `Cell.removeConvict`: its
object identity, its optional source element (`userData.domEl`, identified by
a numeric id), and its scene children.  `_allConvictsByDom` is modelled by
the set of mapped source-element ids (`CellState.domMap`): under the data
model's invariant the map sends each mapped element to its own node, so the
`map.get(domNode)` in `removeConvict` returns the child itself exactly when
the element is present. -/
inductive Convict where
  | node (oid : ℕ) (domEl : Option ℕ) (children : List Convict)

/-- `userData.domEl` of a convict. -/
def Convict.domEl : Convict → Option ℕ
  | .node _ d _ => d

/-- The per-cell indices touched by `removeConvict`: the class index
(`classyConvicts`), the id index (`namedConvicts`), the always-repaint set
(`constantConvicts`) — all lists of object ids — and the mapped source
element ids (`_allConvictsByDom` keys). -/
structure CellState where
  classyConvicts : List ℕ
  namedConvicts : List ℕ
  constantConvicts : List ℕ
  domMap : List ℕ
deriving DecidableEq

mutual
/-- All object ids of a subtree in the order `removeConvict` processes them
(children first, the node itself last). -/
def subtreeOids : Convict → List ℕ
  | .node o _ cs => subtreeOidsList cs ++ [o]

/-- `subtreeOids` over a child list. -/
def subtreeOidsList : List Convict → List ℕ
  | [] => []
  | c :: cs => subtreeOids c ++ subtreeOidsList cs
end

mutual
/-- All source-element ids of a subtree, in processing order. -/
def subtreeDoms : Convict → List ℕ
  | .node _ d cs => subtreeDomsList cs ++ d.toList

/-- `subtreeDoms` over a child list. -/
def subtreeDomsList : List Convict → List ℕ
  | [] => []
  | c :: cs => subtreeDoms c ++ subtreeDomsList cs
end

mutual
def convictSize : Convict → ℕ
  | .node _ _ cs => convictSizeList cs + 1

def convictSizeList : List Convict → ℕ
  | [] => 0
  | c :: cs => convictSize c + convictSizeList cs
end

mutual
/-- `Cell.removeConvict` from cell.js: recursively remove the children first
(a child owning a source element is re-fetched through `_allConvictsByDom`
and skipped entirely when no entry exists), then remove the convict from the
class, id and always-repaint indices with `fastRemove_arry`, delete its dom
map entry, call `domEl.remove()` (recorded in the third component — the
source elements the engine removes from the document), and detach the
convict from its scene parent (its oid recorded in the second component, the
processing trace). -/
def removeConvict (st : CellState) : Convict → CellState × List ℕ × List ℕ
  | .node oid domEl cs =>
    let rec1 := removeConvictChildren st cs
    let st1 := rec1.1
    let st2 : CellState :=
      { classyConvicts := fastRemove_arry st1.classyConvicts oid
        namedConvicts := fastRemove_arry st1.namedConvicts oid
        constantConvicts := fastRemove_arry st1.constantConvicts oid
        domMap :=
          match domEl with
          | some d => st1.domMap.erase d
          | none => st1.domMap }
    (st2, rec1.2.1 ++ [oid], rec1.2.2 ++ domEl.toList)

/-- The `convict.children.slice().forEach(...)` loop of `removeConvict`. -/
def removeConvictChildren (st : CellState) :
    List Convict → CellState × List ℕ × List ℕ
  | [] => (st, [], [])
  | c :: cs =>
    let first :=
      match c.domEl with
      | some d => if d ∈ st.domMap then removeConvict st c else (st, [], [])
      | none => removeConvict st c
    let rest := removeConvictChildren first.1 cs
    (rest.1, first.2.1 ++ rest.2.1, first.2.2 ++ rest.2.2)
end

theorem fastRemove_subset (a : List ℕ) (item x : ℕ)
    (hx : x ∈ fastRemove_arry a item) : x ∈ a := by
  rw [fastRemove_arry] at hx
  by_cases hm : item ∈ a
  · rw [if_pos hm] at hx
    have hne : a ≠ [] := List.ne_nil_of_mem hm
    have hx2 := (List.dropLast_sublist _).subset hx
    rcases List.mem_or_eq_of_mem_set hx2 with h | h
    · exact h
    · rw [h, List.getLast?_eq_getLast a hne]
      exact List.getLast_mem hne
  · rwa [if_neg hm] at hx

theorem domEl_mem_subtreeDoms (c : Convict) (d : ℕ) (h : c.domEl = some d) :
    d ∈ subtreeDoms c := by
  cases c with
  | node o de cs =>
    rw [Convict.domEl] at h
    subst h
    rw [subtreeDoms]
    simp [Option.toList]

/-- Facts about one removal call: the resulting indices only shrink, their
duplicate-freeness is preserved, and — under well-formedness of the input
state — the processing trace is exactly the postorder subtree listing, the
removed source elements are exactly the subtree's, every subtree oid is gone
from all three indices, every subtree dom id is gone from the map, and
unrelated map entries survive. -/
def RemoveFacts (st : CellState) (res : CellState × List ℕ × List ℕ)
    (oids doms : List ℕ) : Prop :=
  (∀ x ∈ res.1.classyConvicts, x ∈ st.classyConvicts) ∧
  (∀ x ∈ res.1.namedConvicts, x ∈ st.namedConvicts) ∧
  (∀ x ∈ res.1.constantConvicts, x ∈ st.constantConvicts) ∧
  (∀ d ∈ res.1.domMap, d ∈ st.domMap) ∧
  (st.classyConvicts.Nodup → res.1.classyConvicts.Nodup) ∧
  (st.namedConvicts.Nodup → res.1.namedConvicts.Nodup) ∧
  (st.constantConvicts.Nodup → res.1.constantConvicts.Nodup) ∧
  (st.domMap.Nodup → res.1.domMap.Nodup) ∧
  ((∀ d ∈ doms, d ∈ st.domMap) → doms.Nodup →
    st.classyConvicts.Nodup → st.namedConvicts.Nodup →
    st.constantConvicts.Nodup → st.domMap.Nodup →
    res.2.1 = oids ∧ res.2.2 = doms ∧
    (∀ x ∈ oids, x ∉ res.1.classyConvicts ∧ x ∉ res.1.namedConvicts ∧
      x ∉ res.1.constantConvicts) ∧
    (∀ d ∈ doms, d ∉ res.1.domMap) ∧
    (∀ d, d ∈ st.domMap → d ∉ doms → d ∈ res.1.domMap))

theorem removeFacts_nil (st : CellState) :
    RemoveFacts st (removeConvictChildren st []) (subtreeOidsList [])
      (subtreeDomsList []) := by
  rw [removeConvictChildren, subtreeOidsList, subtreeDomsList]
  unfold RemoveFacts
  refine ⟨fun x h => h, fun x h => h, fun x h => h, fun d h => h,
    id, id, id, id, ?_⟩
  intro _ _ _ _ _ _
  exact ⟨rfl, rfl, by simp, by simp, fun d hd _ => hd⟩

theorem removeConvict_level : ∀ n : ℕ,
    (∀ c st, convictSize c ≤ n →
      RemoveFacts st (removeConvict st c) (subtreeOids c) (subtreeDoms c)) ∧
    (∀ cs st, convictSizeList cs ≤ n →
      RemoveFacts st (removeConvictChildren st cs) (subtreeOidsList cs)
        (subtreeDomsList cs)) := by
  intro n
  induction n with
  | zero =>
    constructor
    · intro c st hsz
      exfalso
      cases c with
      | node o d cs =>
        rw [convictSize] at hsz
        omega
    · intro cs st hsz
      cases cs with
      | nil => exact removeFacts_nil st
      | cons c cs2 =>
        exfalso
        rw [convictSizeList] at hsz
        cases c with
        | node o d k =>
          rw [convictSize] at hsz
          omega
  | succ n ih =>
    obtain ⟨ihC, ihL⟩ := ih
    have PC : ∀ c st, convictSize c ≤ n + 1 →
        RemoveFacts st (removeConvict st c) (subtreeOids c) (subtreeDoms c) := by
      intro c st hsz
      cases c with
      | node oid domEl cs =>
        rw [convictSize] at hsz
        have hch := ihL cs st (by omega)
        obtain ⟨s1, s2, s3, s4, n1, n2, n3, n4, himp⟩ := hch
        rw [show removeConvict st (Convict.node oid domEl cs) =
            (⟨fastRemove_arry (removeConvictChildren st cs).1.classyConvicts oid,
              fastRemove_arry (removeConvictChildren st cs).1.namedConvicts oid,
              fastRemove_arry (removeConvictChildren st cs).1.constantConvicts oid,
              match domEl with
              | some d => (removeConvictChildren st cs).1.domMap.erase d
              | none => (removeConvictChildren st cs).1.domMap⟩,
             (removeConvictChildren st cs).2.1 ++ [oid],
             (removeConvictChildren st cs).2.2 ++ domEl.toList) from rfl]
        rw [show subtreeOids (Convict.node oid domEl cs) =
            subtreeOidsList cs ++ [oid] from rfl]
        rw [show subtreeDoms (Convict.node oid domEl cs) =
            subtreeDomsList cs ++ domEl.toList from rfl]
        unfold RemoveFacts
        dsimp only
        refine ⟨?_, ?_, ?_, ?_, ?_, ?_, ?_, ?_, ?_⟩
        · exact fun x hx => s1 x (fastRemove_subset _ _ _ hx)
        · exact fun x hx => s2 x (fastRemove_subset _ _ _ hx)
        · exact fun x hx => s3 x (fastRemove_subset _ _ _ hx)
        · intro d hd
          cases domEl with
          | none => exact s4 d hd
          | some d0 => exact s4 d (List.mem_of_mem_erase hd)
        · exact fun h => nodup_fastRemove _ _ (n1 h)
        · exact fun h => nodup_fastRemove _ _ (n2 h)
        · exact fun h => nodup_fastRemove _ _ (n3 h)
        · intro h
          cases domEl with
          | none => exact n4 h
          | some d0 => exact (n4 h).erase d0
        · intro hdsub hdnd hcn hnn hkn hmn
          have hdsub2 : ∀ d ∈ subtreeDomsList cs, d ∈ st.domMap :=
            fun d hd => hdsub d (List.mem_append_left _ hd)
          have hsplit := List.nodup_append.mp hdnd
          obtain ⟨ht1, ht2, habs, hdabs, hpres⟩ :=
            himp hdsub2 hsplit.1 hcn hnn hkn hmn
          refine ⟨by rw [ht1], by rw [ht2], ?_, ?_, ?_⟩
          · intro x hx
            rcases List.mem_append.mp hx with hx | hx
            · obtain ⟨ha, hb, hc⟩ := habs x hx
              exact ⟨fun h => ha (fastRemove_subset _ _ _ h),
                fun h => hb (fastRemove_subset _ _ _ h),
                fun h => hc (fastRemove_subset _ _ _ h)⟩
            · rw [List.mem_singleton] at hx
              subst hx
              refine ⟨?_, ?_, ?_⟩
              · intro h
                exact (((mem_fastRemove x x _ (n1 hcn)).mp h).2) rfl
              · intro h
                exact (((mem_fastRemove x x _ (n2 hnn)).mp h).2) rfl
              · intro h
                exact (((mem_fastRemove x x _ (n3 hkn)).mp h).2) rfl
          · intro d hd
            rcases List.mem_append.mp hd with hd | hd
            · have hnd := hdabs d hd
              cases domEl with
              | none => exact hnd
              | some d0 => exact fun h => hnd (List.mem_of_mem_erase h)
            · cases domEl with
              | none => simp [Option.toList] at hd
              | some d0 =>
                rw [show (some d0).toList = [d0] from rfl, List.mem_singleton] at hd
                subst hd
                exact (n4 hmn).not_mem_erase
          · intro d hd hnd
            have hd1 : d ∈ (removeConvictChildren st cs).1.domMap :=
              hpres d hd (fun h => hnd (List.mem_append_left _ h))
            cases domEl with
            | none => exact hd1
            | some d0 =>
              have hne : d ≠ d0 := by
                intro h
                subst h
                exact hnd (List.mem_append_right _ (by simp [Option.toList]))
              exact List.mem_erase_of_ne hne |>.mpr hd1
    refine ⟨PC, ?_⟩
    intro cs
    induction cs with
    | nil =>
      intro st _
      exact removeFacts_nil st
    | cons c cs2 ihcs =>
      intro st hsz
      rw [convictSizeList] at hsz
      have hc1 : convictSize c ≤ n + 1 := by omega
      have hc2 : convictSizeList cs2 ≤ n + 1 := by omega
      have hrestAll := ihcs
      rw [removeConvictChildren, subtreeOidsList, subtreeDomsList]
      cases hde : c.domEl with
      | none =>
        have hf := PC c st hc1
        obtain ⟨f1, f2, f3, f4, fn1, fn2, fn3, fn4, fimp⟩ := hf
        have hr := hrestAll (removeConvict st c).1 hc2
        obtain ⟨r1, r2, r3, r4, rn1, rn2, rn3, rn4, rimp⟩ := hr
        unfold RemoveFacts
        dsimp only
        refine ⟨fun x hx => f1 x (r1 x hx), fun x hx => f2 x (r2 x hx),
          fun x hx => f3 x (r3 x hx), fun d hd => f4 d (r4 d hd),
          fun h => rn1 (fn1 h), fun h => rn2 (fn2 h), fun h => rn3 (fn3 h),
          fun h => rn4 (fn4 h), ?_⟩
        intro hdsub hdnd hcn hnn hkn hmn
        have hsplit := List.nodup_append.mp hdnd
        obtain ⟨ht1, ht2, habs1, hdabs1, hpres1⟩ := fimp
          (fun d hd => hdsub d (List.mem_append_left _ hd)) hsplit.1 hcn hnn hkn hmn
        obtain ⟨ht1r, ht2r, habs2, hdabs2, hpres2⟩ := rimp
          (fun d hd => hpres1 d (hdsub d (List.mem_append_right _ hd))
            (fun h => hsplit.2.2 h hd)) hsplit.2.1
          (fn1 hcn) (fn2 hnn) (fn3 hkn) (fn4 hmn)
        refine ⟨by rw [ht1, ht1r], by rw [ht2, ht2r], ?_, ?_, ?_⟩
        · intro x hx
          rcases List.mem_append.mp hx with hx | hx
          · obtain ⟨ha, hb, hc⟩ := habs1 x hx
            exact ⟨fun h => ha (r1 x h), fun h => hb (r2 x h), fun h => hc (r3 x h)⟩
          · exact habs2 x hx
        · intro d hd
          rcases List.mem_append.mp hd with hd | hd
          · exact fun h => (hdabs1 d hd) (r4 d h)
          · exact hdabs2 d hd
        · intro d hd hnd
          exact hpres2 d
            (hpres1 d hd (fun h => hnd (List.mem_append_left _ h)))
            (fun h => hnd (List.mem_append_right _ h))
      | some d0 =>
        by_cases hdm : d0 ∈ st.domMap
        · have hf := PC c st hc1
          obtain ⟨f1, f2, f3, f4, fn1, fn2, fn3, fn4, fimp⟩ := hf
          have hr := hrestAll (removeConvict st c).1 hc2
          obtain ⟨r1, r2, r3, r4, rn1, rn2, rn3, rn4, rimp⟩ := hr
          unfold RemoveFacts
          simp only [hde, hdm, if_true, if_pos hdm]
          refine ⟨fun x hx => f1 x (r1 x hx), fun x hx => f2 x (r2 x hx),
            fun x hx => f3 x (r3 x hx), fun d hd => f4 d (r4 d hd),
            fun h => rn1 (fn1 h), fun h => rn2 (fn2 h), fun h => rn3 (fn3 h),
            fun h => rn4 (fn4 h), ?_⟩
          intro hdsub hdnd hcn hnn hkn hmn
          have hsplit := List.nodup_append.mp hdnd
          obtain ⟨ht1, ht2, habs1, hdabs1, hpres1⟩ := fimp
            (fun d hd => hdsub d (List.mem_append_left _ hd)) hsplit.1 hcn hnn hkn hmn
          obtain ⟨ht1r, ht2r, habs2, hdabs2, hpres2⟩ := rimp
            (fun d hd => hpres1 d (hdsub d (List.mem_append_right _ hd))
              (fun h => hsplit.2.2 h hd)) hsplit.2.1
            (fn1 hcn) (fn2 hnn) (fn3 hkn) (fn4 hmn)
          refine ⟨by rw [ht1, ht1r], by rw [ht2, ht2r], ?_, ?_, ?_⟩
          · intro x hx
            rcases List.mem_append.mp hx with hx | hx
            · obtain ⟨ha, hb, hc⟩ := habs1 x hx
              exact ⟨fun h => ha (r1 x h), fun h => hb (r2 x h), fun h => hc (r3 x h)⟩
            · exact habs2 x hx
          · intro d hd
            rcases List.mem_append.mp hd with hd | hd
            · exact fun h => (hdabs1 d hd) (r4 d h)
            · exact hdabs2 d hd
          · intro d hd hnd
            exact hpres2 d
              (hpres1 d hd (fun h => hnd (List.mem_append_left _ h)))
              (fun h => hnd (List.mem_append_right _ h))
        · have hr := hrestAll st hc2
          obtain ⟨r1, r2, r3, r4, rn1, rn2, rn3, rn4, rimp⟩ := hr
          unfold RemoveFacts
          simp only [hde, hdm, if_false, if_neg hdm]
          refine ⟨fun x hx => r1 x hx, fun x hx => r2 x hx,
            fun x hx => r3 x hx, fun d hd => r4 d hd,
            fun h => rn1 h, fun h => rn2 h, fun h => rn3 h, fun h => rn4 h, ?_⟩
          intro hdsub _ _ _ _ _
          exfalso
          exact hdm (hdsub d0 (List.mem_append_left _
            (domEl_mem_subtreeDoms c d0 hde)))

/-- C4: when a mapped source element is removed, `removeConvict` processes
the descendants first (the processing trace is exactly the postorder subtree
listing — every descendant before its parent, root last) and removes the
node and every descendant SceneNode from the id index (`namedConvicts`), the
class index (`classyConvicts`), the always-repaint set (`constantConvicts`)
and the element-to-node map, leaving no dangling entries, under the host's
index invariants (every subtree element mapped, subtree elements distinct,
duplicate-free indices). -/
theorem removeConvict_no_dangling (st : CellState) (c : Convict)
    (hsub : ∀ d ∈ subtreeDoms c, d ∈ st.domMap) (hdn : (subtreeDoms c).Nodup)
    (hcn : st.classyConvicts.Nodup) (hnn : st.namedConvicts.Nodup)
    (hkn : st.constantConvicts.Nodup) (hmn : st.domMap.Nodup) :
    (removeConvict st c).2.1 = subtreeOids c ∧
    (∀ x ∈ subtreeOids c,
      x ∉ (removeConvict st c).1.classyConvicts ∧
      x ∉ (removeConvict st c).1.namedConvicts ∧
      x ∉ (removeConvict st c).1.constantConvicts) ∧
    (∀ d ∈ subtreeDoms c, d ∉ (removeConvict st c).1.domMap) := by
  obtain ⟨_, _, _, _, _, _, _, _, himp⟩ :=
    (removeConvict_level (convictSize c)).1 c st le_rfl
  obtain ⟨ht, _, habs, hdabs, _⟩ := himp hsub hdn hcn hnn hkn hmn
  exact ⟨ht, habs, hdabs⟩

/-- Witness for C4: a two-node tree is fully cleaned out of a host. -/
theorem removeConvict_no_dangling_witness :
    (removeConvict ⟨[1, 2], [1, 2], [2], [7, 8]⟩
        (Convict.node 1 (some 7) [Convict.node 2 (some 8) []])).2.1 =
      subtreeOids (Convict.node 1 (some 7) [Convict.node 2 (some 8) []]) ∧
    1 ∉ (removeConvict ⟨[1, 2], [1, 2], [2], [7, 8]⟩
        (Convict.node 1 (some 7) [Convict.node 2 (some 8) []])).1.classyConvicts := by
  have h := removeConvict_no_dangling ⟨[1, 2], [1, 2], [2], [7, 8]⟩
    (Convict.node 1 (some 7) [Convict.node 2 (some 8) []])
    (by decide) (by decide) (by decide) (by decide) (by decide) (by decide)
  exact ⟨h.1, (h.2.1 1 (by decide)).1⟩

/-- C5 counterexample: destroying a SceneNode makes the engine itself remove
the node's source element from the document tree — `removeConvict` calls
`domEl.remove()`.  The dom-removal trace of this concrete run is `[7]`, not
empty, refuting "the engine never mutates or removes a SourceElement from
the document tree". -/
theorem removeConvict_removes_source_element :
    (removeConvict ⟨[1], [1], [], [7]⟩ (Convict.node 1 (some 7) [])).2.2 = [7] ∧
    (removeConvict ⟨[1], [1], [], [7]⟩ (Convict.node 1 (some 7) [])).2.2 ≠ [] :=
  ⟨by decide, by decide⟩

/-- C5 (amended): during SceneNode destruction the engine does remove source
elements from the document — exactly the destroyed subtree's own source
elements (`domEl.remove()` for the node and every mapped descendant), and no
element outside the subtree. -/
theorem removeConvict_dom_removals (st : CellState) (c : Convict)
    (hsub : ∀ d ∈ subtreeDoms c, d ∈ st.domMap) (hdn : (subtreeDoms c).Nodup)
    (hcn : st.classyConvicts.Nodup) (hnn : st.namedConvicts.Nodup)
    (hkn : st.constantConvicts.Nodup) (hmn : st.domMap.Nodup) :
    (removeConvict st c).2.2 = subtreeDoms c := by
  obtain ⟨_, _, _, _, _, _, _, _, himp⟩ :=
    (removeConvict_level (convictSize c)).1 c st le_rfl
  exact (himp hsub hdn hcn hnn hkn hmn).2.1

/-- Witness for C5 (amended). -/
theorem removeConvict_dom_removals_witness :
    (removeConvict ⟨[1], [1], [], [7]⟩ (Convict.node 1 (some 7) [])).2.2 =
      subtreeDoms (Convict.node 1 (some 7) []) :=
  removeConvict_dom_removals ⟨[1], [1], [], [7]⟩ (Convict.node 1 (some 7) [])
    (by decide) (by decide) (by decide) (by decide) (by decide) (by decide)

/-! ### Pickability and ray casting (`_apply_rule` picking step, artist.js;
shared raycaster, NoScope.js) -/

/-- A CSS style rule as seen by `getCSSRule`: its selector text split on
commas, each selector split into whitespace tokens. -/
structure CSSRuleM where
  selectorTokens : List (List String)
deriving DecidableEq

/-- `getCSSRule` from artist.js: the first rule of the loaded stylesheets one
of whose comma-separated selectors contains `selector` as a whitespace
token. -/
def getCSSRule (sheets : List CSSRuleM) (selector : String) : Option CSSRuleM :=
  sheets.find? (fun r => r.selectorTokens.any (fun toks => decide (selector ∈ toks)))

/-- The picking-relevant state of a scene object: its class selectors
(`userData.classList`, with the object `name` fallback), its optional dom id,
the direct interaction handler attributes of its source element, and its
`layers` set (the enabled Three.js layer numbers). -/
structure PickObj where
  classList : List String
  name : String
  domId : Option String
  hasOnclick : Bool
  hasOnmouseover : Bool
  hasOndblclick : Bool
  hasOnmousedown : Bool
  hasOnmouseup : Bool
  hasOncontextmenu : Bool
  hasOnmouseenter : Bool
  hasOnmouseleave : Bool
  layers : List ℕ
deriving DecidableEq

/-- `getObjectClassSelectors` from artist.js: the `userData.classList` when
non-empty, else the object name as a singleton, else nothing. -/
def getObjectClassSelectors (o : PickObj) : List String :=
  if o.classList ≠ [] then o.classList
  else if o.name ≠ "" then [o.name] else []

/-- `hasClassPseudoRule` from artist.js. -/
def hasClassPseudoRule (sheets : List CSSRuleM) (o : PickObj) (pseudo : String) :
    Bool :=
  (getObjectClassSelectors o).any
    (fun cls => (getCSSRule sheets ("." ++ cls ++ pseudo)).isSome)

/-- The pickability condition of `_apply_rule`: one of the six handler
attributes the code checks on the source element (`onclick`, `onmouseover`,
`ondblclick`, `onmousedown`, `onmouseup`, `oncontextmenu`), a `:hover` /
`:focus` pseudo-rule on one of the node's class selectors, or a `:focus` /
`:hover` pseudo-rule on the node's id.  Note `_apply_rule` does NOT check
`onmouseenter` or `onmouseleave`, although NoScope.js dispatches pointer
enter/leave events to those handlers. -/
def pickCondition (sheets : List CSSRuleM) (o : PickObj) : Bool :=
  o.hasOnclick || o.hasOnmouseover || o.hasOndblclick || o.hasOnmousedown ||
  o.hasOnmouseup || o.hasOncontextmenu ||
  hasClassPseudoRule sheets o ":hover" || hasClassPseudoRule sheets o ":focus" ||
  (match o.domId with
   | some did => (getCSSRule sheets ("#" ++ did ++ ":focus")).isSome
   | none => false) ||
  (match o.domId with
   | some did => (getCSSRule sheets ("#" ++ did ++ ":hover")).isSome
   | none => false)

/-- The picking-layer step of `_apply_rule`: `object.layers.enable(3)` when
the condition holds, `object.layers.disable(3)` otherwise. -/
def applyPickability (sheets : List CSSRuleM) (o : PickObj) : PickObj :=
  if pickCondition sheets o then
    { o with layers := if 3 ∈ o.layers then o.layers else 3 :: o.layers }
  else
    { o with layers := o.layers.filter (fun n => n != 3) }

/-- The shared raycaster of NoScope.js is restricted to layer 3
(`raycaster.layers.set(3)`).  Three.js `intersectObjects` applies the layer
test `(object.layers.mask & raycaster.layers.mask) !== 0` to every candidate
before any geometric test; with the mask set to layer 3 this is membership of
layer 3.  Modelled from the backend's documented layer-test contract. -/
def raycastPickables (objs : List PickObj) : List PickObj :=
  objs.filter (fun o => decide (3 ∈ o.layers))

/-- Spec-modelled: the spec's direct-interaction-handler family (click,
pointer hover / enter / leave, mouse down / up, double-click, context menu).
Unlike `pickCondition`, this includes `onmouseenter` and `onmouseleave`,
which the engine's pointer pipeline dispatches to. -/
def specDeclaresHandler (o : PickObj) : Bool :=
  o.hasOnclick || o.hasOnmouseover || o.hasOnmouseenter || o.hasOnmouseleave ||
  o.hasOndblclick || o.hasOnmousedown || o.hasOnmouseup || o.hasOncontextmenu

/-- A node whose source element declares only `onmouseenter`, currently on
layer 3 with no stylesheets loaded. -/
def mouseenterObj : PickObj :=
  ⟨[], "", none, false, false, false, false, false, false, true, false, [3]⟩

/-- C6 (amended): after the pickability step of a paint, the node is on the
pickable ray-cast layer iff its source element declares one of the six
handler attributes the step actually checks (`onclick`, `onmouseover`,
`ondblclick`, `onmousedown`, `onmouseup`, `oncontextmenu`) or a loaded
stylesheet contains a hover/focus pseudo-rule matching one of the node's
class or id selectors — `onmouseenter` / `onmouseleave` do not confer
pickability (the iff's right side ignores those fields of the universally
quantified `o`); and a node not on the pickable layer is never among the
ray-cast candidates, regardless of geometric overlap (which the layer test
precedes). -/
theorem pickability_spec (sheets : List CSSRuleM) (o : PickObj)
    (objs : List PickObj) :
    (3 ∈ (applyPickability sheets o).layers ↔
      (o.hasOnclick = true ∨ o.hasOnmouseover = true ∨ o.hasOndblclick = true ∨
       o.hasOnmousedown = true ∨ o.hasOnmouseup = true ∨
       o.hasOncontextmenu = true ∨
       hasClassPseudoRule sheets o ":hover" = true ∨
       hasClassPseudoRule sheets o ":focus" = true ∨
       (∃ did, o.domId = some did ∧
         ((getCSSRule sheets ("#" ++ did ++ ":focus")).isSome = true ∨
          (getCSSRule sheets ("#" ++ did ++ ":hover")).isSome = true)))) ∧
    (∀ p ∈ raycastPickables objs, 3 ∈ p.layers) ∧
    (∀ p ∈ objs, 3 ∉ p.layers → p ∉ raycastPickables objs) := by
  have hcond : pickCondition sheets o = true ↔
      (o.hasOnclick = true ∨ o.hasOnmouseover = true ∨ o.hasOndblclick = true ∨
       o.hasOnmousedown = true ∨ o.hasOnmouseup = true ∨
       o.hasOncontextmenu = true ∨
       hasClassPseudoRule sheets o ":hover" = true ∨
       hasClassPseudoRule sheets o ":focus" = true ∨
       (∃ did, o.domId = some did ∧
         ((getCSSRule sheets ("#" ++ did ++ ":focus")).isSome = true ∨
          (getCSSRule sheets ("#" ++ did ++ ":hover")).isSome = true))) := by
    unfold pickCondition
    cases hdom : o.domId with
    | none =>
      simp [Bool.or_eq_true]
      tauto
    | some did =>
      simp [Bool.or_eq_true]
      tauto
  refine ⟨?_, ?_, ?_⟩
  · rw [← hcond]
    unfold applyPickability
    by_cases hp : pickCondition sheets o = true
    · rw [if_pos hp]
      simp only [hp, iff_true]
      by_cases h3 : 3 ∈ o.layers
      · simp [h3]
      · simp [h3]
    · rw [if_neg hp]
      simp only [List.mem_filter]
      constructor
      · rintro ⟨_, hc⟩
        simp at hc
      · intro hc
        exact absurd hc hp
  · intro p hp
    have := List.mem_filter.mp hp
    simpa using this.2
  · intro p _ h3 hmem
    have := List.mem_filter.mp hmem
    exact h3 (by simpa using this.2)

/-- Witness for C6: a node off layer 3 is not among the ray-cast candidates. -/
theorem pickability_spec_witness :
    (⟨[], "", none, false, false, false, false, false, false, false, false, [0]⟩ : PickObj) ∉
      raycastPickables
        [⟨[], "", none, false, false, false, false, false, false, false, false, [0]⟩] :=
  (pickability_spec [] ⟨[], "", none, false, false, false, false, false, false, false, false, [0]⟩
      [⟨[], "", none, false, false, false, false, false, false, false, false, [0]⟩]).2.2
    ⟨[], "", none, false, false, false, false, false, false, false, false, [0]⟩
    (by decide) (by decide)

/-- C6 counterexample: a node whose source element declares only
`onmouseenter` — a handler of the spec's direct-interaction family, and one
the engine's pointer pipeline really dispatches to — is nevertheless taken
off the pickable layer by the paint step and excluded from the layer-3 ray
cast, because `_apply_rule` checks only six handler attributes and omits
`onmouseenter` / `onmouseleave`; the claimed iff fails at this node. -/
theorem pickability_mouseenter_not_pickable :
    specDeclaresHandler mouseenterObj = true ∧
    hasClassPseudoRule [] mouseenterObj ":hover" = false ∧
    hasClassPseudoRule [] mouseenterObj ":focus" = false ∧
    mouseenterObj.domId = none ∧
    3 ∉ (applyPickability [] mouseenterObj).layers ∧
    applyPickability [] mouseenterObj ∉
      raycastPickables [applyPickability [] mouseenterObj] := by
  decide
